import Mathlib

/-
  Verification of the object-based-collections library (TypeScript).

  The development shallowly embeds the parts of the repository that the
  checked properties talk about:

  * `src/collections/hamt/hash.ts` — the xxHash32-style string hash and the
    `Hasher` dispatch.  JavaScript numbers are IEEE-754 doubles, and the
    source multiplies 32-bit quantities with plain `*` (not `Math.imul`),
    so intermediate products exceed 2^53 and are rounded.  All values
    appearing in this code path are integers exactly representable as
    doubles, so the arithmetic is embedded exactly over `Int` with an
    explicit rounding function `fit53` (round to nearest, ties to even,
    53 significand bits), plus the `ToInt32`/`ToUint32` coercions that JS
    bitwise operators perform.
  * the HAMT node layer (`Bitmap`, `LeafNode`, `BitmapIndexedNode`) — this
    code is not part of the sources (only its callers and tests are), so it
    is modelled from the specification, §4.1/§4.3/§4.4.
  * `src/collections/map/common.ts`, `src/collections/set/common.ts` — the
    map/set façades over the node layer.
  * `src/collections/optional/common.ts`, `src/collections/stack/common.ts`
    and the two-stack queue — throwing operations are embedded as
    `Except`-valued functions.
-/

set_option maxRecDepth 4000

/-! ## JavaScript number semantics -/

/-- 2^32, the modulus of JS `ToUint32`. -/
def U32 : Int := 2 ^ 32

/-- JS `ToUint32` on an integral double: value mod 2^32, in `[0, 2^32)`. -/
def toUint32 (n : Int) : Int := n % U32

/-- JS `ToInt32` on an integral double: value mod 2^32, in `[-2^31, 2^31)`. -/
def toInt32 (n : Int) : Int :=
  let m := n % U32
  if m < 2 ^ 31 then m else m - U32

/-- The `ToUint32` image as a natural number. -/
def u32 (n : Int) : Nat := (toUint32 n).toNat

/-- Structural binary logarithm (the first argument is fuel, large enough
    for every value this development feeds it), kept structural so the
    kernel can evaluate it on literals. -/
def log2F : Nat → Nat → Nat
  | 0, _ => 0
  | fuel + 1, n => if n < 2 then 0 else log2F fuel (n / 2) + 1

/-- Round a natural number to the nearest IEEE-754 double
    (53 significand bits), ties to even. -/
def fit53Nat (m : Nat) : Nat :=
  if m < 2 ^ 53 then m
  else
    let unit := 2 ^ (log2F 100 m - 52)
    let q := m / unit
    let r := m % unit
    if 2 * r < unit then q * unit
    else if 2 * r > unit then (q + 1) * unit
    else if q % 2 = 0 then q * unit else (q + 1) * unit

/-- Round an integer to the nearest IEEE-754 double.  Every intermediate
    value of the embedded hash code is an integer, so exact JS double
    arithmetic is integer arithmetic followed by this rounding. -/
def fit53 (n : Int) : Int :=
  if n < 0 then -(fit53Nat (-n).toNat : Nat) else (fit53Nat n.toNat : Nat)

/-- JS `a + b` on integral doubles. -/
def jsAdd (a b : Int) : Int := fit53 (a + b)

/-- JS `a * b` on integral doubles (NOT `Math.imul`): the exact product
    rounded to double precision. -/
def jsMul (a b : Int) : Int := fit53 (a * b)

/-- JS `Math.imul`: exact low 32 bits of the product, as a signed int32. -/
def imul (a b : Int) : Int := toInt32 (a * b)

/-- JS `a << s` for a literal shift amount `s < 32`. -/
def jsShl (a : Int) (s : Nat) : Int := toInt32 (toUint32 a * 2 ^ s)

/-- JS `a >>> s` for a literal shift amount `s < 32`. -/
def jsShrU (a : Int) (s : Nat) : Int := toUint32 a / 2 ^ s

/-- JS `a | b`. -/
def jsOr (a b : Int) : Int := toInt32 (Int.ofNat (Nat.lor (u32 a) (u32 b)))

/-- JS `a ^ b`. -/
def jsXor (a b : Int) : Int := toInt32 (Int.ofNat (Nat.xor (u32 a) (u32 b)))

/-! ## hamt/hash.ts — the code's xxHash32, embedded with JS semantics -/

/-- `rotateLeft32` from hash.ts: `((value << bits) | (value >>> (32 - bits))) >>> 0`. -/
def rotateLeft32 (value : Int) (bits : Nat) : Int :=
  toUint32 (jsOr (jsShl value bits) (jsShrU value (32 - bits)))

def PRIME_32_1 : Int := 0x9e3779b1
def PRIME_32_2 : Int := 0x85ebca77
def PRIME_32_3 : Int := 0xc2b2ae3d
def PRIME_32_4 : Int := 0x27d4eb2f
def PRIME_32_5 : Int := 0x165667b1

/-- `readUint32LittleEndian` from hash.ts.  The byte array is the UTF-8
    encoding of the input string (`TextEncoder.encode`). -/
def readUint32LittleEndian (bytes : List Nat) (offset : Nat) : Int :=
  toUint32 (jsOr (jsOr (jsOr (Int.ofNat (bytes.getD offset 0))
    (jsShl (Int.ofNat (bytes.getD (offset + 1) 0)) 8))
    (jsShl (Int.ofNat (bytes.getD (offset + 2) 0)) 16))
    (jsShl (Int.ofNat (bytes.getD (offset + 3) 0)) 24))

/-- One accumulator update of the 16-byte block loop:
    `v = rotateLeft32(v + read(pos) * PRIME_32_2, 13); v = (v * PRIME_32_1) >>> 0`. -/
def xxLane (bytes : List Nat) (pos : Nat) (v : Int) : Int :=
  toUint32 (jsMul (rotateLeft32
    (jsAdd v (jsMul (readUint32LittleEndian bytes pos) PRIME_32_2)) 13) PRIME_32_1)

/-- The `while (currentPosition <= processLimit)` block loop of hash.ts.
    The first argument is fuel bounding the number of iterations; callers
    pass at least `processLimit + 1`, so it is never exhausted (each
    iteration advances `pos` by 16). -/
def xxBlocks (bytes : List Nat) (processLimit : Nat) :
    Nat → Nat → Int → Int → Int → Int → Int × Int × Int × Int × Nat
  | 0, pos, v1, v2, v3, v4 => (v1, v2, v3, v4, pos)
  | fuel + 1, pos, v1, v2, v3, v4 =>
    if pos ≤ processLimit then
      xxBlocks bytes processLimit fuel (pos + 16)
        (xxLane bytes pos v1) (xxLane bytes (pos + 4) v2)
        (xxLane bytes (pos + 8) v3) (xxLane bytes (pos + 12) v4)
    else (v1, v2, v3, v4, pos)

/-- The `while (currentPosition + 4 <= inputLength)` loop of hash.ts,
    with an iteration-bounding fuel argument that is never exhausted. -/
def xxTail4 (bytes : List Nat) (inputLength : Nat) :
    Nat → Nat → Int → Int × Nat
  | 0, pos, hash => (hash, pos)
  | fuel + 1, pos, hash =>
    if pos + 4 ≤ inputLength then
      xxTail4 bytes inputLength fuel (pos + 4)
        (toUint32 (jsMul (rotateLeft32 (toUint32 (jsAdd hash
          (jsMul (readUint32LittleEndian bytes pos) PRIME_32_3))) 17) PRIME_32_4))
    else (hash, pos)

/-- The `while (currentPosition < inputLength)` byte loop of hash.ts,
    with an iteration-bounding fuel argument that is never exhausted. -/
def xxTail1 (bytes : List Nat) (inputLength : Nat) :
    Nat → Nat → Int → Int
  | 0, _, hash => hash
  | fuel + 1, pos, hash =>
    if pos < inputLength then
      xxTail1 bytes inputLength fuel (pos + 1)
        (toUint32 (jsMul (rotateLeft32 (toUint32 (jsAdd hash
          (jsMul (Int.ofNat (bytes.getD pos 0)) PRIME_32_5))) 11) PRIME_32_1))
    else hash

/-- `xxHash32` from hash.ts, embedded with exact JS double semantics, over
    the UTF-8 bytes of the input string. -/
def xxHash32 (bytes : List Nat) (seed : Int := 0) : Int :=
  let inputLength := bytes.length
  let state :=
    if inputLength ≥ 16 then
      xxBlocks bytes (inputLength - 16) (inputLength + 1) 0
        (toUint32 (seed + PRIME_32_1 + PRIME_32_2))
        (toUint32 (seed + PRIME_32_2))
        (toUint32 (seed + 0))
        (toUint32 (seed - PRIME_32_1))
    else (0, 0, 0, 0, 0)
  let hash0 : Int :=
    if inputLength ≥ 16 then
      jsAdd (jsAdd (jsAdd (rotateLeft32 state.1 1) (rotateLeft32 state.2.1 7))
        (rotateLeft32 state.2.2.1 12)) (rotateLeft32 state.2.2.2.1 18)
    else toUint32 (seed + PRIME_32_5)
  let pos0 := if inputLength ≥ 16 then state.2.2.2.2 else 0
  let hash1 := toUint32 (jsAdd hash0 (Int.ofNat inputLength))
  let tail4 := xxTail4 bytes inputLength (inputLength + 1) pos0 hash1
  let hash3 := xxTail1 bytes inputLength (inputLength + 1) tail4.2 tail4.1
  let hash4 := jsXor hash3 (jsShrU hash3 15)
  let hash5 := toUint32 (jsMul hash4 PRIME_32_2)
  let hash6 := jsXor hash5 (jsShrU hash5 13)
  let hash7 := toUint32 (jsMul hash6 PRIME_32_3)
  let hash8 := jsXor hash7 (jsShrU hash7 16)
  toUint32 hash8

/-- `avalanche32` from hash.ts.  This one uses `Math.imul`, so it is exact
    32-bit arithmetic. -/
def avalanche32 (hash : Int) : Int :=
  let h1 := jsXor hash (jsShrU hash 16)
  let h2 := imul h1 0x85ebca6b
  let h3 := jsXor h2 (jsShrU h2 13)
  let h4 := imul h3 0xc2b2ae35
  let h5 := jsXor h4 (jsShrU h4 16)
  toUint32 h5

/-- The default `algorithm` of the `Hasher` factory:
    `avalanche32(xxHash32(String(value)))`. -/
def defaultAlgorithm (bytes : List Nat) : Int := avalanche32 (xxHash32 bytes)

/-! ## The reference xxHash32 (exact 32-bit arithmetic, as the spec describes) -/

/-- 2^32 as a natural number. -/
def M32 : Nat := 2 ^ 32

/-- Exact 32-bit rotate left (for `x < 2^32`, `0 < b < 32`). -/
def rotl (x : Nat) (b : Nat) : Nat := x * 2 ^ b % M32 + x / 2 ^ (32 - b)

/-- Exact little-endian 32-bit read. -/
def readLE (bytes : List Nat) (offset : Nat) : Nat :=
  bytes.getD offset 0 + bytes.getD (offset + 1) 0 * 2 ^ 8 +
    bytes.getD (offset + 2) 0 * 2 ^ 16 + bytes.getD (offset + 3) 0 * 2 ^ 24

/-- One exact accumulator update of the reference xxHash32 block loop. -/
def specLane (bytes : List Nat) (pos : Nat) (v : Nat) : Nat :=
  rotl ((v + readLE bytes pos * 0x85ebca77) % M32) 13 * 0x9e3779b1 % M32

/-- Reference xxHash32 block loop: four interleaved 32-bit accumulators over
    16-byte blocks (fuel-bounded, never exhausted by its caller). -/
def specBlocks (bytes : List Nat) (processLimit : Nat) :
    Nat → Nat → Nat → Nat → Nat → Nat → Nat × Nat × Nat × Nat × Nat
  | 0, pos, v1, v2, v3, v4 => (v1, v2, v3, v4, pos)
  | fuel + 1, pos, v1, v2, v3, v4 =>
    if pos ≤ processLimit then
      specBlocks bytes processLimit fuel (pos + 16)
        (specLane bytes pos v1) (specLane bytes (pos + 4) v2)
        (specLane bytes (pos + 8) v3) (specLane bytes (pos + 12) v4)
    else (v1, v2, v3, v4, pos)

/-- Reference xxHash32: remaining bytes folded four at a time
    (fuel-bounded, never exhausted by its caller). -/
def specTail4 (bytes : List Nat) (inputLength : Nat) :
    Nat → Nat → Nat → Nat × Nat
  | 0, pos, hash => (hash, pos)
  | fuel + 1, pos, hash =>
    if pos + 4 ≤ inputLength then
      specTail4 bytes inputLength fuel (pos + 4)
        (rotl ((hash + readLE bytes pos * 0xc2b2ae3d) % M32) 17 * 0x27d4eb2f % M32)
    else (hash, pos)

/-- Reference xxHash32: remaining bytes folded one at a time
    (fuel-bounded, never exhausted by its caller). -/
def specTail1 (bytes : List Nat) (inputLength : Nat) :
    Nat → Nat → Nat → Nat
  | 0, _, hash => hash
  | fuel + 1, pos, hash =>
    if pos < inputLength then
      specTail1 bytes inputLength fuel (pos + 1)
        (rotl ((hash + bytes.getD pos 0 * 0x165667b1) % M32) 11 * 0x9e3779b1 % M32)
    else hash

/-- The genuine xxHash32 algorithm over a byte sequence, with exact 32-bit
    arithmetic throughout: 16-byte blocks processed with four interleaved
    accumulators seeded from the fixed primes, each block
    rotate-multiply-mixed; remaining bytes folded 4-at-a-time then
    byte-at-a-time; finished with the avalanche
    `h ^= h>>15; h *= C1; h ^= h>>13; h *= C2; h ^= h>>16`.
    This definition reproduces the official test vectors
    (e.g. `specXxHash32 [] = 0x02cc5d05`, `specXxHash32 [97] = 0x550d7456`). -/
def specXxHash32 (bytes : List Nat) (seed : Nat := 0) : Nat :=
  let inputLength := bytes.length
  let state :=
    if inputLength ≥ 16 then
      specBlocks bytes (inputLength - 16) (inputLength + 1) 0
        ((seed + 0x9e3779b1 + 0x85ebca77) % M32)
        ((seed + 0x85ebca77) % M32)
        (seed % M32)
        ((seed + M32 - 0x9e3779b1 % M32) % M32)
    else (0, 0, 0, 0, 0)
  let hash0 :=
    if inputLength ≥ 16 then
      (rotl state.1 1 + rotl state.2.1 7 + rotl state.2.2.1 12 +
        rotl state.2.2.2.1 18) % M32
    else (seed + 0x165667b1) % M32
  let pos0 := if inputLength ≥ 16 then state.2.2.2.2 else 0
  let hash1 := (hash0 + inputLength) % M32
  let tail4 := specTail4 bytes inputLength (inputLength + 1) pos0 hash1
  let hash3 := specTail1 bytes inputLength (inputLength + 1) tail4.2 tail4.1
  let hash4 := Nat.xor hash3 (hash3 / 2 ^ 15)
  let hash5 := hash4 * 0x85ebca77 % M32
  let hash6 := Nat.xor hash5 (hash5 / 2 ^ 13)
  let hash7 := hash6 * 0xc2b2ae3d % M32
  Nat.xor hash7 (hash7 / 2 ^ 16)

/-- What the claim describes as the default string hash: the xxHash32
    algorithm followed by the second avalanche pass with multiplicative
    constants `0x85ebca6b` and `0xc2b2ae35`. -/
def specStringHash (bytes : List Nat) : Int :=
  avalanche32 (Int.ofNat (specXxHash32 bytes))

/-! ## The `Hasher` dispatch over JavaScript values -/

/-- A model of the JavaScript values the hasher dispatches over.  Strings
    are represented by their UTF-8 bytes; numbers by integers (the integral
    doubles relevant to hashing); functions, bigints and symbols by the
    bytes of their `toString()`; records by their constructor name and
    their own enumerable properties. -/
inductive JSValue where
  | str (bytes : List Nat)
  | num (n : Int)
  | boolean (b : Bool)
  | nullV
  | undefinedV
  | fn (source : List Nat)
  | bigintV (digits : List Nat)
  | symbolV (description : List Nat)
  | arr (items : List JSValue)
  | record (ctorName : List Nat) (props : List (List Nat × JSValue))

/-- Decimal ASCII bytes of a natural number. -/
def natDecBytes (n : Nat) : List Nat := (Nat.toDigits 10 n).map Char.toNat

/-- Decimal ASCII bytes of an integer (JS number-to-string for integral
    values). -/
def intDecBytes (n : Int) : List Nat :=
  if n < 0 then 45 :: natDecBytes n.natAbs else natDecBytes n.toNat

/-- JS string coercion (template-literal `${value}`), modelled for the value
    kinds the record branch of the hasher interpolates: primitives print
    their standard form, arrays join their elements with commas, plain
    records print as `[object Object]`. -/
def jsRender : JSValue → List Nat
  | .str s => s
  | .num n => intDecBytes n
  | .boolean b =>
      if b then [116, 114, 117, 101] else [102, 97, 108, 115, 101]
  | .nullV => [110, 117, 108, 108]
  | .undefinedV => [117, 110, 100, 101, 102, 105, 110, 101, 100]
  | .fn s => s
  | .bigintV s => s
  | .symbolV s => s
  | .arr items =>
      List.intercalate [44] (items.attach.map (fun i => jsRender i.1))
  | .record _ _ =>
      [91, 111, 98, 106, 101, 99, 116, 32, 79, 98, 106, 101, 99, 116, 93]
decreasing_by
  simp_wf
  have := List.sizeOf_lt_of_mem i.2
  omega

/-- `Hasher.hash` from hash.ts with the default algorithm: type dispatch
    over the value kinds.  Strings go through
    `avalanche32(xxHash32(value))`; numbers are returned as-is; booleans
    map to 1/0; null and undefined to 0; functions, bigints and symbols
    hash their `toString()`; arrays hash the comma-joined decimal
    renderings of their element hashes; records hash the constructor name
    concatenated with `algorithm(key + ":" + value)` per own property. -/
def jsHash : JSValue → Int
  | .str s => defaultAlgorithm s
  | .num n => n
  | .boolean b => if b then 1 else 0
  | .nullV => 0
  | .undefinedV => 0
  | .fn s => defaultAlgorithm s
  | .bigintV s => defaultAlgorithm s
  | .symbolV s => defaultAlgorithm s
  | .arr items =>
      defaultAlgorithm (List.intercalate [44]
        (items.attach.map (fun i => intDecBytes (jsHash i.1))))
  | .record name props =>
      defaultAlgorithm (name ++
        (props.map (fun p =>
          intDecBytes (defaultAlgorithm (p.1 ++ 58 :: jsRender p.2)))).flatten)
decreasing_by
  simp_wf
  have := List.sizeOf_lt_of_mem i.2
  omega

/-- Whether a JS value is of number kind. -/
def JSValue.isNum : JSValue → Bool
  | .num _ => true
  | _ => false

/-! ## optional/common.ts -/

/-- The distinguished invalid-state error kinds thrown by the library
    façades: `NoSuchElementException` (Optional, Queue) and
    `EmptyStackException` (Stack). -/
inductive JsError where
  | noSuchElementException
  | emptyStackException
deriving DecidableEq

/-- `Optional.get`: unwraps the value; on an empty Optional, `None.get`
    throws `NoSuchElementException("No value present")`. -/
def optionalGet {T : Type} : Option T → Except JsError T
  | none => .error .noSuchElementException
  | some v => .ok v

/-! ## stack/common.ts

A stack is a linked chain of `StackNode`s with the top at the head; the
embedding is the list of values, head first. -/

/-- `Stack.push`: O(1) with structural sharing. -/
def stackPush {T : Type} (s : List T) (e : T) : List T := e :: s

/-- `Stack.pop`: throws `EmptyStackException` on an empty stack. -/
def stackPop {T : Type} : List T → Except JsError (List T)
  | [] => .error .emptyStackException
  | _ :: t => .ok t

/-- `Stack.peek`: throws `EmptyStackException` on an empty stack. -/
def stackPeek {T : Type} : List T → Except JsError T
  | [] => .error .emptyStackException
  | x :: _ => .ok x

/-- `Stack.safePop`: returns the remaining stack and an Optional element. -/
def stackSafePop {T : Type} : List T → List T × Option T
  | [] => ([], none)
  | x :: t => (t, some x)

/-- `Stack.safePeek` (and `peekOption`): Optional-returning peek. -/
def stackSafePeek {T : Type} : List T → Option T
  | [] => none
  | x :: _ => some x

/-! ## The two-stack queue (queue/common.ts) -/

/-- `QueueData`: front stack for dequeue, rear stack for enqueue.  The
    cached `size` field always equals `front.length + rear.length`, so it is
    kept derived. -/
structure QueueData (T : Type) where
  front : List T
  rear : List T
deriving DecidableEq

/-- The queue's `size`. -/
def queueSize {T : Type} (d : QueueData T) : Nat :=
  d.front.length + d.rear.length

/-- The source's `normalize` from queue/common.ts: when `front` is empty and `rear` is
    not, replaces `front` by `[...rear].reverse()` and empties `rear`. -/
def queueNormalize {T : Type} (d : QueueData T) : QueueData T :=
  if d.front.length > 0 ∨ d.rear.length = 0 then d
  else ⟨d.rear.reverse, []⟩

/-- `Queue.add` (and `offer`): appends to the end of `rear`. -/
def queueAdd {T : Type} (d : QueueData T) (e : T) : QueueData T :=
  ⟨d.front, d.rear ++ [e]⟩

/-- `Queue.remove`: normalizes, throws `NoSuchElementException` if the
    normalized front is empty, otherwise drops `front[0]`. -/
def queueRemove {T : Type} (d : QueueData T) : Except JsError (QueueData T) :=
  let n := queueNormalize d
  match n.front with
  | [] => .error .noSuchElementException
  | _ :: rest => .ok ⟨rest, n.rear⟩

/-- `Queue.poll`: like `remove` but returns the original queue and an empty
    Optional when empty. -/
def queuePoll {T : Type} (d : QueueData T) : QueueData T × Option T :=
  let n := queueNormalize d
  match n.front with
  | [] => (d, none)
  | x :: rest => (⟨rest, n.rear⟩, some x)

/-- `Queue.element`: returns `front[0]` after normalization, throwing
    `NoSuchElementException` when empty. -/
def queueElement {T : Type} (d : QueueData T) : Except JsError T :=
  let n := queueNormalize d
  match n.front with
  | [] => .error .noSuchElementException
  | x :: _ => .ok x

/-- `Queue.peek` (and `elementOption`): Optional-returning head access. -/
def queuePeek {T : Type} (d : QueueData T) : Option T :=
  let n := queueNormalize d
  match n.front with
  | [] => none
  | x :: _ => some x

/-- `Queue.toArray`: front elements in order, then rear elements in order
    ("they are already in correct order" per the source comment). -/
def queueToArray {T : Type} (d : QueueData T) : List T :=
  d.front ++ d.rear

/-- The empty queue produced by `Queue()`. -/
def emptyQueue {T : Type} : QueueData T := ⟨[], []⟩


/-! ## HAMT bitmap — Modelled from the spec (§4.1)

The repository's `hamt/bitmap.ts` and node implementation are not part of
the given sources (only their callers, type declarations and tests are), so
the node layer below is modelled from the specification.  A one-hot
`bitpos` value `1 << d` is represented by its digit `d`; `has`, `next`,
`without` and `index` are the spec's operations expressed arithmetically:
`has` tests bit `d`, `next` ORs the bit in, `without` ANDs its complement,
and `index` is the population count of the bits strictly below `d`. -/

/-- Modelled from the spec: `bitpos(hash, shift)` extracts the 5-bit digit
    `(hash >>> shift) & 0x1F`; we work with the digit itself.  The JS
    unsigned shift coerces the hash with `ToUint32`. -/
def digit (h : Int) (s : Nat) : Nat := u32 h / 2 ^ s % 32

/-- Modelled from the spec: `index(bitpos)` — the number of set bits of the
    bitmap strictly below digit `d`, which is the child-array index. -/
def indexBelow : Nat → Nat → Nat
  | _, 0 => 0
  | bm, d + 1 => bm % 2 + indexBelow (bm / 2) d

/-- Modelled from the spec: population count of a 32-bit bitmap (all bits
    lie below 32). -/
def popcount (bm : Nat) : Nat := indexBelow bm 32

/-- Modelled from the spec: `has(bitpos)` — true iff bit `d` is set. -/
def hasB (bm d : Nat) : Bool := bm / 2 ^ d % 2 = 1

/-- Modelled from the spec: `next(bitpos)` — OR the one-hot bit into the
    bitmap (pure). -/
def setBit (bm d : Nat) : Nat := if hasB bm d then bm else bm + 2 ^ d

/-- Modelled from the spec: `without(bitpos)` — AND with the complement of
    the one-hot bit (pure). -/
def clearBit (bm d : Nat) : Nat := if hasB bm d then bm - 2 ^ d else bm

/-- Insertion into a child array at an index (JS `splice`-style copy:
    positions past the end append). -/
def insertAtL {A : Type} : List A → Nat → A → List A
  | l, 0, x => x :: l
  | [], _ + 1, x => [x]
  | a :: t, i + 1, x => a :: insertAtL t i x

/-- Copy-without deletion from a child array at an index. -/
def removeAtL {A : Type} : List A → Nat → List A
  | [], _ => []
  | _ :: t, 0 => t
  | a :: t, i + 1 => a :: removeAtL t i

/-! ## HAMT nodes — Modelled from the spec (§4.3–§4.4) -/

/-- Modelled from the spec: the two node variants.  A `leaf` holds a full
    32-bit hash, key and value; a `bitmapIndexed` node holds the presence
    bitmap and the compacted child array in ascending bit-rank order. -/
inductive HAMTNode (K V : Type) where
  | leaf (hash : Int) (key : K) (value : V)
  | bitmapIndexed (bitmap : Nat) (children : List (HAMTNode K V))

/-- The child occupying digit `d` of a bitmap-indexed node, if any. -/
def childAt {K V : Type} (bm : Nat) (cs : List (HAMTNode K V)) (d : Nat) :
    Option (HAMTNode K V) :=
  if hasB bm d then cs.get? (indexBelow bm d) else none

/-- The in-order traversal of a node (leaf: singleton; bitmap-indexed:
    concatenation of the children in bit-rank order), keeping the stored
    hash alongside each key/value pair. -/
def hentries {K V : Type} : HAMTNode K V → List (Int × K × V)
  | .leaf h k v => [(h, k, v)]
  | .bitmapIndexed _ cs => cs.attach.flatMap fun c => hentries c.1
decreasing_by
  simp_wf
  have := List.sizeOf_lt_of_mem c.2
  omega

/-- Modelled from the spec: `toArray` — the same traversal with the stored
    hashes dropped. -/
def toArrayNode {K V : Type} (n : HAMTNode K V) : List (K × V) :=
  (hentries n).map fun e => (e.2.1, e.2.2)

/-- Modelled from the spec: `get(hash, shift)`.  A leaf answers on an exact
    full 32-bit hash compare; a bitmap-indexed node routes by the digit at
    `shift` and recurses at `shift + 5`, absent bit meaning absent. -/
def getNode {K V : Type} : HAMTNode K V → Int → Nat → Option V
  | .leaf h0 _ v0, h, _ => if h = h0 then some v0 else none
  | .bitmapIndexed bm cs, h, s =>
    if hasB bm (digit h s) then
      match hc : cs.get? (indexBelow bm (digit h s)) with
      | some c => getNode c h (s + 5)
      | none => none
    else none
decreasing_by
  simp_wf
  have := List.sizeOf_lt_of_mem (List.get?_mem hc)
  omega

/-- Modelled from the spec: `contains(hash, shift)` — the same comparison,
    boolean. -/
def containsNode {K V : Type} : HAMTNode K V → Int → Nat → Bool
  | .leaf h0 _ _, h, _ => h = h0
  | .bitmapIndexed bm cs, h, s =>
    if hasB bm (digit h s) then
      match hc : cs.get? (indexBelow bm (digit h s)) with
      | some c => containsNode c h (s + 5)
      | none => false
    else false
decreasing_by
  simp_wf
  have := List.sizeOf_lt_of_mem (List.get?_mem hc)
  omega

/-- Modelled from the spec: splitting a leaf against an incoming pair whose
    hash differs: both are positioned by their digits at `shift`; while the
    digits agree the split recurses one level deeper, building a chain of
    single-child bitmap-indexed nodes until the digits diverge.  The fuel
    argument bounds the chain length; for distinct 32-bit hashes the digits
    diverge within seven levels, so callers pass 8 and the fuel is never
    exhausted (the spec leaves behaviour beyond hash exhaustion undefined;
    this model resolves it as last-write-wins). -/
def splitLeaf {K V : Type} (h1 : Int) (k1 : K) (v1 : V) (h2 : Int) (k2 : K) (v2 : V) :
    Nat → Nat → HAMTNode K V
  | 0, _ => .leaf h2 k2 v2
  | fuel + 1, s =>
    let d1 := digit h1 s
    let d2 := digit h2 s
    if d1 = d2 then
      .bitmapIndexed (setBit 0 d1) [splitLeaf h1 k1 v1 h2 k2 v2 fuel (s + 5)]
    else if d1 < d2 then
      .bitmapIndexed (setBit (setBit 0 d1) d2) [.leaf h1 k1 v1, .leaf h2 k2 v2]
    else
      .bitmapIndexed (setBit (setBit 0 d1) d2) [.leaf h2 k2 v2, .leaf h1 k1 v1]

/-- Modelled from the spec: `add(hash, shift, key, value)`.  A leaf with the
    same stored hash is replaced by a new leaf with the incoming key/value
    (last-write-wins); a differing hash splits.  A bitmap-indexed node
    inserts a new leaf at the rank position of an absent bit, or recursively
    adds into the occupied child and replaces that one slot in a copied
    child array. -/
def addNode {K V : Type} : HAMTNode K V → Int → Nat → K → V → HAMTNode K V
  | .leaf h0 k0 v0, h, s, k, v =>
    if h = h0 then .leaf h k v
    else splitLeaf h0 k0 v0 h k v 8 s
  | .bitmapIndexed bm cs, h, s, k, v =>
    let d := digit h s
    if hasB bm d then
      match hc : cs.get? (indexBelow bm d) with
      | some c => .bitmapIndexed bm (cs.set (indexBelow bm d) (addNode c h (s + 5) k v))
      | none => .bitmapIndexed bm cs
    else
      .bitmapIndexed (setBit bm d) (insertAtL cs (indexBelow bm d) (.leaf h k v))
decreasing_by
  simp_wf
  have := List.sizeOf_lt_of_mem (List.get?_mem hc)
  omega

/-- Modelled from the spec: `remove(hash, shift)`.  `none` is the absent
    result.  A leaf is deleted on hash match and returned unchanged
    otherwise; a bitmap-indexed node with the bit absent is a no-op; an
    occupied slot removes recursively, and an absent child result deletes
    the slot (copy-without), propagating absent upward when no children
    remain so the parent collapses too. -/
def removeNode {K V : Type} : HAMTNode K V → Int → Nat → Option (HAMTNode K V)
  | .leaf h0 k0 v0, h, _ =>
    if h = h0 then none else some (.leaf h0 k0 v0)
  | .bitmapIndexed bm cs, h, s =>
    let d := digit h s
    if hasB bm d then
      match hc : cs.get? (indexBelow bm d) with
      | some c =>
        match removeNode c h (s + 5) with
        | some c2 => some (.bitmapIndexed bm (cs.set (indexBelow bm d) c2))
        | none =>
          let cs2 := removeAtL cs (indexBelow bm d)
          if cs2.isEmpty then none else some (.bitmapIndexed (clearBit bm d) cs2)
      | none => some (.bitmapIndexed bm cs)
    else some (.bitmapIndexed bm cs)
decreasing_by
  simp_wf
  have := List.sizeOf_lt_of_mem (List.get?_mem hc)
  omega

/-- No bitmap-indexed node of the trie has an empty child array (the
    canonical empty collection is the absent root at the façade, never an
    allocated empty node). -/
def noEmptyB {K V : Type} : HAMTNode K V → Bool
  | .leaf .. => true
  | .bitmapIndexed _ cs => !cs.isEmpty && cs.attach.all fun c => noEmptyB c.1
decreasing_by
  simp_wf
  have := List.sizeOf_lt_of_mem c.2
  omega

/-- Well-formedness of a node at its shift: the bitmap is a 32-bit value,
    the child array length is its population count, and each child is
    well-formed one level deeper with all its entries' hashes carrying that
    child's digit at this shift. -/
inductive Wf {K V : Type} : HAMTNode K V → Nat → Prop where
  | leaf (h : Int) (k : K) (v : V) (s : Nat) : Wf (.leaf h k v) s
  | bitmapIndexed (bm : Nat) (cs : List (HAMTNode K V)) (s : Nat)
      (hbm : bm < 2 ^ 32)
      (hlen : cs.length = popcount bm)
      (hwf : ∀ d c, childAt bm cs d = some c → Wf c (s + 5))
      (hdig : ∀ d c, childAt bm cs d = some c → ∀ e ∈ hentries c, digit e.1 s = d) :
      Wf (.bitmapIndexed bm cs) s

/-! ## The map façade (map/common.ts) and the set façade (set/common.ts) -/

/-- `ImmutableMap`: a façade owning `root: HAMTNode | null`. -/
structure IMap (K V : Type) where
  root : Option (HAMTNode K V)

/-- `BitmapIndexedNode()` — the empty node used as the `fromArray` seed. -/
def emptyBI {K V : Type} : HAMTNode K V := .bitmapIndexed 0 []

/-- `ImmutableMap.add`: hash the key; a null root becomes a fresh leaf,
    otherwise delegate to the root node's `add` at shift 0. -/
def mapAdd {K V : Type} (hasher : K → Int) (m : IMap K V) (k : K) (v : V) :
    IMap K V :=
  match m.root with
  | none => ⟨some (.leaf (hasher k) k v)⟩
  | some r => ⟨some (addNode r (hasher k) 0 k v)⟩

/-- `ImmutableMap.remove`: `root?.remove(hash, 0)` wrapped as the new root. -/
def mapRemove {K V : Type} (hasher : K → Int) (m : IMap K V) (k : K) : IMap K V :=
  ⟨m.root.bind fun r => removeNode r (hasher k) 0⟩

/-- `ImmutableMap.get`: `Optional(root?.get(hash, 0))`. -/
def mapGet {K V : Type} (hasher : K → Int) (m : IMap K V) (k : K) : Option V :=
  m.root.bind fun r => getNode r (hasher k) 0

/-- `ImmutableMap.contains`: `root?.contains(hash, 0) || false`. -/
def mapContains {K V : Type} (hasher : K → Int) (m : IMap K V) (k : K) : Bool :=
  match m.root with
  | none => false
  | some r => containsNode r (hasher k) 0

/-- `ImmutableMap.toArray`: `root?.toArray() || []`. -/
def mapToArray {K V : Type} (m : IMap K V) : List (K × V) :=
  match m.root with
  | none => []
  | some r => toArrayNode r

/-- `ImmutableMap.size`: `toArray().length`. -/
def mapSize {K V : Type} (m : IMap K V) : Nat := (mapToArray m).length

/-- `ImmutableMap.equals`: same size, and every own entry's key is
    contained in the other map with a comparator-equal value.  The source
    unwraps `comparison.get(key).get()` after the `contains` guard; the
    impossible absent case (contains true but get empty) is embedded as
    `false`. -/
def mapEquals {K V : Type} (hasher : K → Int) (m o : IMap K V)
    (f : V → V → Bool) : Bool :=
  if mapSize m ≠ mapSize o then false
  else (mapToArray m).all fun e =>
    if mapContains hasher o e.1 then
      match mapGet hasher o e.1 with
      | some v2 => f e.2 v2
      | none => false
    else false

/-- `fromArray` (map/common.ts): fold `add` over the entries starting from
    `BitmapIndexedNode()`. -/
def mapFromArray {K V : Type} (hasher : K → Int) (items : List (K × V)) :
    IMap K V :=
  ⟨some (items.foldl (fun acc e => addNode acc (hasher e.1) 0 e.1 e.2) emptyBI)⟩

/-- `ImmutableSet.add` (set/common.ts): a set is the same trie with a void
    value. -/
def setAdd {K : Type} (hasher : K → Int) (st : IMap K Unit) (k : K) :
    IMap K Unit :=
  mapAdd hasher st k ()

/-- `ImmutableSet.remove`: explicit null-root check, then
    `root.remove(hash, 0)`. -/
def setRemove {K : Type} (hasher : K → Int) (st : IMap K Unit) (k : K) :
    IMap K Unit :=
  mapRemove hasher st k

/-- `ImmutableSet.contains`. -/
def setContains {K : Type} (hasher : K → Int) (st : IMap K Unit) (k : K) : Bool :=
  mapContains hasher st k

/-- `ImmutableSet.toArray`: keys of the traversal. -/
def setToArray {K : Type} (st : IMap K Unit) : List K :=
  (mapToArray st).map fun e => e.1

/-- `ImmutableSet.size`. -/
def setSize {K : Type} (st : IMap K Unit) : Nat := (setToArray st).length

/-- `ImmutableSet.equals`: same size and every own key contained in the
    comparison set. -/
def setEquals {K : Type} (hasher : K → Int) (st other : IMap K Unit) : Bool :=
  if setSize st ≠ setSize other then false
  else (setToArray st).all fun k => setContains hasher other k

/-- `fromArray` (set/common.ts). -/
def setFromArray {K : Type} (hasher : K → Int) (keys : List K) : IMap K Unit :=
  ⟨some (keys.foldl (fun acc k => addNode acc (hasher k) 0 k ()) emptyBI)⟩

/-- The spec's description of the `fromArray`/`toArray` round trip: the
    input entries with every earlier entry whose key hashes equally to a
    later one collapsed away (last-write-wins against the full 32-bit
    hash). -/
def lastWins {K V : Type} (hasher : K → Int) (items : List (K × V)) :
    List (K × V) :=
  items.foldl (fun acc e => acc.filter (fun e2 => hasher e2.1 != hasher e.1) ++ [e]) []

/-- The same collapse carried out on hash-tagged entries (proof vehicle and
    the hash multiset used by the removal claim). -/
def lastWinsH {K V : Type} : List (Int × K × V) → List (Int × K × V) :=
  fun l => l.foldl (fun acc e => acc.filter (fun e2 => e2.1 != e.1) ++ [e]) []


/-- The digit-indexed view of a bitmap-indexed node's entries: the
    concatenation over all 32 digits of the entries of the child at that
    digit (empty when absent). -/
def entriesAtDigits {K V : Type} (bm : Nat) (cs : List (HAMTNode K V)) :
    List (Int × K × V) :=
  (List.range 32).flatMap fun d => ((childAt bm cs d).map hentries).getD []

/-- The façade root invariant: a non-null root is well-formed at shift 0. -/
def WfRoot {K V : Type} (m : IMap K V) : Prop :=
  ∀ r, m.root = some r → Wf r 0

/-- Every stored hash is the hash of its own key (true of every trie built
    through the façade, which only ever inserts `(hasher(key), key, value)`). -/
def HashConsistent {K V : Type} (hasher : K → Int) (m : IMap K V) : Prop :=
  ∀ r, m.root = some r → ∀ e ∈ hentries r, e.1 = hasher e.2.1

/-- A non-null root has no empty bitmap-indexed node anywhere. -/
def RootNoEmpty {K V : Type} (m : IMap K V) : Prop :=
  ∀ r, m.root = some r → noEmptyB r = true

/-- The spec's last-write-wins collapse on a plain key list (the set
    variant of `lastWins`). -/
def lastWinsK {K : Type} (hasher : K → Int) (keys : List K) : List K :=
  keys.foldl (fun acc k => acc.filter (fun k2 => hasher k2 != hasher k) ++ [k]) []

/-- The tagged last-write-wins fold: the entries the trie is expected to
    hold after inserting `items` into a trie currently holding `init`. -/
def tagFold {K V : Type} (hasher : K → Int) (items : List (K × V))
    (init : List (Int × K × V)) : List (Int × K × V) :=
  items.foldl (fun acc e =>
    acc.filter (fun e2 => e2.1 != hasher e.1) ++ [(hasher e.1, e.1, e.2)]) init

/-! ## Theorems -/

theorem toUint32_nonneg (n : Int) : 0 ≤ toUint32 n :=
  Int.emod_nonneg n (by norm_num [U32])

theorem toUint32_lt (n : Int) : toUint32 n < U32 :=
  Int.emod_lt_of_pos n (by norm_num [U32])

theorem avalanche32_nonneg (h : Int) : 0 ≤ avalanche32 h :=
  toUint32_nonneg _

theorem avalanche32_lt (h : Int) : avalanche32 h < U32 :=
  toUint32_lt _

theorem defaultAlgorithm_nonneg (s : List Nat) : 0 ≤ defaultAlgorithm s :=
  avalanche32_nonneg _

theorem defaultAlgorithm_lt (s : List Nat) : defaultAlgorithm s < U32 :=
  avalanche32_lt _

/-- C2 (amended): `Hasher.hash` is total and deterministic, and for every
    input that is not of number kind the result is a 32-bit unsigned
    integer in `[0, 2^32)`; for numeric inputs the result is the number
    itself taken as-is, which lies in `[0, 2^32)` only when the number
    does (a negative or too-large number is returned out of range). -/
theorem C2_hash_range_amended (v : JSValue) :
    (v.isNum = false → 0 ≤ jsHash v ∧ jsHash v < U32) ∧
    (∀ n : Int, v = .num n → jsHash v = n) := by
  constructor
  · intro hnum
    cases v with
    | str s => simpa [jsHash] using ⟨defaultAlgorithm_nonneg s, defaultAlgorithm_lt s⟩
    | num n => simp [JSValue.isNum] at hnum
    | boolean b => cases b <;> simp [jsHash] <;> norm_num [U32]
    | nullV => simp [jsHash]; norm_num [U32]
    | undefinedV => simp [jsHash]; norm_num [U32]
    | fn s => simpa [jsHash] using ⟨defaultAlgorithm_nonneg s, defaultAlgorithm_lt s⟩
    | bigintV s => simpa [jsHash] using ⟨defaultAlgorithm_nonneg s, defaultAlgorithm_lt s⟩
    | symbolV s => simpa [jsHash] using ⟨defaultAlgorithm_nonneg s, defaultAlgorithm_lt s⟩
    | arr items => simpa [jsHash] using ⟨defaultAlgorithm_nonneg _, defaultAlgorithm_lt _⟩
    | record name props => simpa [jsHash] using ⟨defaultAlgorithm_nonneg _, defaultAlgorithm_lt _⟩
  · rintro n rfl
    simp [jsHash]

/-- C2 witness: concrete instances of the amended claim — a boolean hashes
    into `[0, 2^32)` and a number hashes to itself. -/
theorem C2_hash_range_amended_witness :
    (0 ≤ jsHash (.boolean true) ∧ jsHash (.boolean true) < U32) ∧
    jsHash (.num 5) = 5 :=
  ⟨(C2_hash_range_amended (.boolean true)).1 rfl,
   (C2_hash_range_amended (.num 5)).2 5 rfl⟩

/-- C2 counterexample: the claim as stated is false — `Hasher.hash` of the
    number `-1` is `-1`, which is not a 32-bit unsigned integer in
    `[0, 2^32)`. -/
theorem C2_hash_range_counterexample :
    jsHash (.num (-1)) = -1 ∧ ¬ (0 ≤ jsHash (.num (-1))) := by
  constructor
  · simp [jsHash]
  · simp [jsHash]

/-- C8: `xxHash32` as written in hash.ts does NOT compute the xxHash32
    algorithm.  The source multiplies with plain `*` (not `Math.imul`), so
    intermediate products exceed 2^53 and lose their low bits to IEEE-754
    rounding before `>>> 0` truncates them.  Already on the empty string
    the code produces 3675544340 where the genuine algorithm (verified
    against the official test vectors) produces 0x02cc5d05 = 46947589, and
    the composed default string hash differs accordingly. -/
theorem C8_code_hash_differs_from_xxHash32 :
    xxHash32 [] = 3675544340 ∧ specXxHash32 [] = 46947589 ∧
    defaultAlgorithm [] = 1148652683 ∧ specStringHash [] = 3223069994 ∧
    defaultAlgorithm [] ≠ specStringHash [] := by
  refine ⟨by decide, by decide, by decide, by decide, by decide⟩

/-- C9: unwrapping an empty Optional, popping or peeking an empty Stack,
    and `remove`/`element` on an empty Queue all produce the distinguished
    invalid-state error synchronously, while the safe variants
    (`safePop`/`safePeek`/`peekOption`, Queue `poll`/`peek`) return an
    empty Optional instead. -/
theorem C9_empty_access_raises (o : Option Int) (s : List Int) (q : QueueData Int) :
    (o = none → optionalGet o = .error .noSuchElementException) ∧
    (s = [] → stackPop s = .error .emptyStackException ∧
      stackPeek s = .error .emptyStackException ∧
      stackSafePop s = ([], none) ∧ stackSafePeek s = none) ∧
    (queueSize q = 0 →
      queueRemove q = .error .noSuchElementException ∧
      queueElement q = .error .noSuchElementException ∧
      (queuePoll q).2 = none ∧ queuePeek q = none) := by
  refine ⟨?_, ?_, ?_⟩
  · rintro rfl; rfl
  · rintro rfl; exact ⟨rfl, rfl, rfl, rfl⟩
  · intro hq
    obtain ⟨front, rear⟩ := q
    simp only [queueSize] at hq
    have hf : front = [] := List.length_eq_zero.mp (by omega)
    have hr : rear = [] := List.length_eq_zero.mp (by omega)
    subst hf; subst hr
    exact ⟨rfl, rfl, rfl, rfl⟩

/-- C9 witness: the theorem instantiated at the concrete empty Optional,
    Stack and Queue. -/
theorem C9_empty_access_raises_witness :
    optionalGet (none : Option Int) = .error .noSuchElementException ∧
    stackPop ([] : List Int) = .error .emptyStackException ∧
    queueElement (emptyQueue : QueueData Int) = .error .noSuchElementException :=
  ⟨(C9_empty_access_raises none [] emptyQueue).1 rfl,
   ((C9_empty_access_raises none [] emptyQueue).2.1 rfl).1,
   ((C9_empty_access_raises none [] emptyQueue).2.2 rfl).2.1⟩

/-- C10: the two-stack queue is NOT FIFO after `add`s: `normalize`
    transfers `rear` to `front` with a reversal although `toArray` treats
    `rear` as already being in front-to-back order, so
    `Queue().add(1).add(2).element()` returns 2 — the most recently added
    element — while `toArray` of the same queue reports `[1, 2]` and FIFO
    (and the source's own documentation) require 1. -/
theorem C10_two_stack_queue_breaks_fifo :
    queueElement (queueAdd (queueAdd (emptyQueue : QueueData Nat) 1) 2) = .ok 2 ∧
    queueToArray (queueAdd (queueAdd (emptyQueue : QueueData Nat) 1) 2) = [1, 2] ∧
    (queuePoll (queueAdd (queueAdd (emptyQueue : QueueData Nat) 1) 2)).2 = some 2 := by
  refine ⟨rfl, rfl, rfl⟩

/-! ### List helpers -/

theorem attach_flatMap {A B : Type} (l : List A) (f : A → List B) :
    l.attach.flatMap (fun x => f x.1) = l.flatMap f := by
  conv_rhs => rw [← List.attach_map_subtype_val l]
  induction l.attach with
  | nil => rfl
  | cons a t ih => simp_all

theorem attach_all {A : Type} (l : List A) (p : A → Bool) :
    (l.attach.all fun x => p x.1) = l.all p := by
  conv_rhs => rw [← List.attach_map_subtype_val l]
  induction l.attach with
  | nil => rfl
  | cons a t ih => simp_all

theorem mem_insertAtL {A : Type} :
    ∀ (l : List A) (i : Nat) (x a : A), a ∈ insertAtL l i x → a ∈ l ∨ a = x := by
  intro l
  induction l with
  | nil =>
    intro i x a ha
    cases i <;> simp [insertAtL] at ha <;> exact Or.inr ha
  | cons b t ih =>
    intro i x a ha
    cases i with
    | zero =>
      simp [insertAtL] at ha
      rcases ha with h | h
      · exact Or.inr h
      · exact Or.inl (List.mem_cons.mpr h)
    | succ j =>
      simp [insertAtL] at ha
      rcases ha with h | h
      · exact Or.inl (by simp [h])
      · rcases ih j x a h with h2 | h2
        · exact Or.inl (by simp [h2])
        · exact Or.inr h2

theorem length_insertAtL {A : Type} :
    ∀ (l : List A) (i : Nat) (x : A), i ≤ l.length →
      (insertAtL l i x).length = l.length + 1 := by
  intro l
  induction l with
  | nil =>
    intro i x hi
    simp only [List.length_nil, Nat.le_zero] at hi
    subst hi
    simp [insertAtL]
  | cons b t ih =>
    intro i x hi
    cases i with
    | zero => simp [insertAtL]
    | succ j => simp [insertAtL]; exact ih j x (by simpa using hi)

theorem get?_insertAtL_frozen {A : Type} :
    ∀ (l : List A) (i j : Nat) (x : A), j < i → i ≤ l.length →
      (insertAtL l i x).get? j = l.get? j := by
  intro l
  induction l with
  | nil => intro i j x hj hi; simp at hi; omega
  | cons b t ih =>
    intro i j x hj hi
    cases i with
    | zero => omega
    | succ i2 =>
      cases j with
      | zero => simp [insertAtL]
      | succ j2 =>
        simpa [insertAtL] using ih i2 j2 x (by omega) (by simpa using hi)

theorem mem_removeAtL {A : Type} :
    ∀ (l : List A) (i : Nat) (a : A), a ∈ removeAtL l i → a ∈ l := by
  intro l
  induction l with
  | nil => intro i a ha; simp [removeAtL] at ha
  | cons b t ih =>
    intro i a ha
    cases i with
    | zero => simp [removeAtL] at ha; simp [ha]
    | succ j =>
      simp [removeAtL] at ha
      rcases ha with h | h
      · simp [h]
      · exact List.mem_cons_of_mem b (ih j a h)

theorem length_removeAtL {A : Type} :
    ∀ (l : List A) (i : Nat), i < l.length →
      (removeAtL l i).length = l.length - 1 := by
  intro l
  induction l with
  | nil => intro i hi; simp at hi
  | cons b t ih =>
    intro i hi
    cases i with
    | zero => simp [removeAtL]
    | succ j =>
      simp only [removeAtL, List.length_cons]
      have hj : j < t.length := by simpa using hi
      rw [ih j hj]
      omega

theorem set_get?_self {A : Type} :
    ∀ (l : List A) (i : Nat) (a : A), l.get? i = some a → l.set i a = l := by
  intro l
  induction l with
  | nil => intro i a h; simp at h
  | cons b t ih =>
    intro i a h
    cases i with
    | zero => simp_all
    | succ j => simp_all

theorem flatMap_filterMap {A B C : Type} (l : List A) (g : A → Option B)
    (f : B → List C) :
    (l.filterMap g).flatMap f = l.flatMap (fun a => ((g a).map f).getD []) := by
  induction l with
  | nil => rfl
  | cons a t ih =>
    cases hg : g a <;> simp [List.filterMap_cons, hg, ih]

theorem filter_flatMap {A B : Type} (l : List A) (f : A → List B) (p : B → Bool) :
    (l.flatMap f).filter p = l.flatMap (fun a => (f a).filter p) := by
  induction l with
  | nil => rfl
  | cons a t ih => simp [List.filter_append, ih]

theorem flatMap_congr_mem {A B : Type} (l : List A) (f g : A → List B)
    (h : ∀ a ∈ l, f a = g a) : l.flatMap f = l.flatMap g := by
  induction l with
  | nil => rfl
  | cons a t ih =>
    simp only [List.flatMap_cons]
    rw [h a (by simp), ih (fun a ha => h a (by simp [ha]))]

theorem flatMap_perm_single {A B : Type} :
    ∀ (l : List A), l.Nodup → ∀ (g1 g2 : A → List B) (d : A) (x : B),
      d ∈ l → (∀ a ∈ l, a ≠ d → g1 a = g2 a) →
      List.Perm (g1 d) (x :: g2 d) →
      List.Perm (l.flatMap g1) (x :: l.flatMap g2) := by
  intro l
  induction l with
  | nil => intro _ g1 g2 d x hd; simp at hd
  | cons a t ih =>
    intro hnd g1 g2 d x hd hag hperm
    simp only [List.flatMap_cons]
    rcases List.mem_cons.mp hd with rfl | hdt
    · have ht : t.flatMap g1 = t.flatMap g2 := by
        refine flatMap_congr_mem t g1 g2 (fun b hb => hag b (by simp [hb]) ?_)
        intro hbd
        exact (List.nodup_cons.mp hnd).1 (hbd ▸ hb)
      rw [ht]
      exact hperm.append_right _
    · have ha : g1 a = g2 a := by
        refine hag a (by simp) ?_
        rintro rfl
        exact (List.nodup_cons.mp hnd).1 hdt
      rw [ha]
      have hrec := ih (List.nodup_cons.mp hnd).2 g1 g2 d x hdt
        (fun b hb => hag b (by simp [hb])) hperm
      exact List.Perm.trans (hrec.append_left (g2 a)) List.perm_middle

theorem nodup_flatMap_tagged {A B : Type} :
    ∀ (l : List A) (g : A → List B) (F : B → A), l.Nodup →
      (∀ d ∈ l, (g d).Nodup) → (∀ d ∈ l, ∀ x ∈ g d, F x = d) →
      (l.flatMap g).Nodup := by
  intro l
  induction l with
  | nil => intro g F _ _ _; simp
  | cons a t ih =>
    intro g F hnd hgd hF
    simp only [List.flatMap_cons]
    refine List.Nodup.append (hgd a (by simp))
      (ih g F (List.nodup_cons.mp hnd).2 (fun d hd => hgd d (by simp [hd]))
        (fun d hd => hF d (by simp [hd]))) ?_
    intro x hx1 hx2
    obtain ⟨d, hd, hxd⟩ := List.mem_flatMap.mp hx2
    have h1 : F x = a := hF a (by simp) x hx1
    have h2 : F x = d := hF d (by simp [hd]) x hxd
    have had : a = d := by rw [← h1, h2]
    exact (List.nodup_cons.mp hnd).1 (had ▸ hd)

/-! ### Bitmap lemmas -/

theorem hasB_true_iff (bm d : Nat) : hasB bm d = true ↔ bm / 2 ^ d % 2 = 1 := by
  simp [hasB]

theorem hasB_false_iff (bm d : Nat) : hasB bm d = false ↔ bm / 2 ^ d % 2 = 0 := by
  simp only [hasB, decide_eq_false_iff_not]
  omega

theorem hasB_zero (bm : Nat) : hasB bm 0 = decide (bm % 2 = 1) := by
  simp [hasB]

theorem hasB_succ (bm d : Nat) : hasB bm (d + 1) = hasB (bm / 2) d := by
  unfold hasB
  rw [Nat.pow_succ, Nat.mul_comm, ← Nat.div_div_eq_div_mul]

theorem hasB_of_lt_pow (bm d : Nat) (h : bm < 2 ^ d) : hasB bm d = false := by
  rw [hasB_false_iff, Nat.div_eq_of_lt h]

theorem indexBelow_zero_left : ∀ d, indexBelow 0 d = 0 := by
  intro d
  induction d with
  | zero => rfl
  | succ e ih => simp [indexBelow, ih]

theorem indexBelow_succ_split (bm : Nat) : ∀ d, indexBelow bm (d + 1) = indexBelow bm d + bm / 2 ^ d % 2 := by
  induction bm using Nat.strong_induction_on with
  | _ bm ih =>
    intro d
    cases d with
    | zero => simp [indexBelow]
    | succ e =>
      show bm % 2 + indexBelow (bm / 2) (e + 1) = (bm % 2 + indexBelow (bm / 2) e) + _
      by_cases hbm : bm = 0
      · subst hbm; simp [indexBelow_zero_left]
      · rw [ih (bm / 2) (Nat.div_lt_self (Nat.pos_of_ne_zero hbm) (by norm_num)) e]
        have : bm / 2 ^ (e + 1) = bm / 2 / 2 ^ e := by
          rw [Nat.pow_succ, Nat.mul_comm, ← Nat.div_div_eq_div_mul]
        rw [this]
        omega

theorem indexBelow_mono (bm : Nat) : ∀ d w, d ≤ w → indexBelow bm d ≤ indexBelow bm w := by
  intro d w
  induction w with
  | zero =>
    intro h
    have hd0 : d = 0 := by omega
    subst hd0
    exact Nat.le_refl _
  | succ e ih =>
    intro h
    rcases Nat.lt_or_ge d (e + 1) with h2 | h2
    · have := ih (by omega)
      rw [indexBelow_succ_split]
      omega
    · have hde : d = e + 1 := by omega
      subst hde
      exact Nat.le_refl _

theorem indexBelow_lt_of_hasB (bm d w : Nat) (hd : hasB bm d = true) (hw : d < w) :
    indexBelow bm d < indexBelow bm w := by
  have h1 : indexBelow bm (d + 1) = indexBelow bm d + 1 := by
    rw [indexBelow_succ_split, (hasB_true_iff bm d).mp hd]
  have h2 := indexBelow_mono bm (d + 1) w hw
  omega

theorem setBit_unset (bm d : Nat) (h : hasB bm d = false) : setBit bm d = bm + 2 ^ d := by
  simp [setBit, h]

theorem clearBit_set (bm d : Nat) (h : hasB bm d = true) : clearBit bm d = bm - 2 ^ d := by
  simp [clearBit, h]

theorem digit_lt_32 (h : Int) (s : Nat) : digit h s < 32 :=
  Nat.mod_lt _ (by norm_num)

theorem hasB_add_pow_self (bm d : Nat) (h : hasB bm d = false) :
    hasB (bm + 2 ^ d) d = true := by
  rw [hasB_false_iff] at h
  rw [hasB_true_iff, Nat.add_div_right bm (Nat.pos_pow_of_pos d (by norm_num))]
  omega

theorem hasB_sub_pow_self (bm d : Nat) (h : hasB bm d = true) :
    hasB (bm - 2 ^ d) d = false := by
  rw [hasB_true_iff] at h
  have hle : 2 ^ d ≤ bm := by
    by_contra hlt
    rw [Nat.div_eq_of_lt (by omega)] at h
    omega
  rw [hasB_false_iff]
  have : bm - 2 ^ d + 2 ^ d = bm := by omega
  have h2 : (bm - 2 ^ d + 2 ^ d) / 2 ^ d = (bm - 2 ^ d) / 2 ^ d + 1 :=
    Nat.add_div_right _ (Nat.pos_pow_of_pos d (by norm_num))
  rw [this] at h2
  omega

theorem indexBelow_add_pow (d : Nat) : ∀ (bm w : Nat), d < w → hasB bm d = false →
    indexBelow (bm + 2 ^ d) w = indexBelow bm w + 1 := by
  induction d with
  | zero =>
    intro bm w hw hd
    rw [hasB_false_iff] at hd
    simp only [Nat.pow_zero, Nat.div_one] at hd
    cases w with
    | zero => omega
    | succ e =>
      show (bm + 1) % 2 + indexBelow ((bm + 1) / 2) e = (bm % 2 + indexBelow (bm / 2) e) + 1
      have h1 : (bm + 1) % 2 = bm % 2 + 1 := by omega
      have h2 : (bm + 1) / 2 = bm / 2 := by omega
      rw [h1, h2]
      omega
  | succ δ ih =>
    intro bm w hw hd
    cases w with
    | zero => omega
    | succ e =>
      have hstep : hasB (bm / 2) δ = false := by rw [← hasB_succ]; exact hd
      have hp : 2 ^ (δ + 1) = 2 ^ δ * 2 := Nat.pow_succ 2 δ
      have h1 : (bm + 2 ^ (δ + 1)) % 2 = bm % 2 := by rw [hp]; omega
      have h2 : (bm + 2 ^ (δ + 1)) / 2 = bm / 2 + 2 ^ δ := by rw [hp]; omega
      show (bm + 2 ^ (δ + 1)) % 2 + indexBelow ((bm + 2 ^ (δ + 1)) / 2) e = _ + 1
      rw [h1, h2, ih (bm / 2) e (by omega) hstep]
      show bm % 2 + (indexBelow (bm / 2) e + 1) = (bm % 2 + indexBelow (bm / 2) e) + 1
      omega

theorem indexBelow_sub_pow (d : Nat) : ∀ (bm w : Nat), d < w → hasB bm d = true →
    indexBelow (bm - 2 ^ d) w = indexBelow bm w - 1 := by
  intro bm w hw hd
  have hle : 2 ^ d ≤ bm := by
    rw [hasB_true_iff] at hd
    by_contra hlt
    rw [Nat.div_eq_of_lt (by omega)] at hd
    omega
  have hd2 : hasB (bm - 2 ^ d) d = false := hasB_sub_pow_self bm d hd
  have := indexBelow_add_pow d (bm - 2 ^ d) w hw hd2
  have heq : bm - 2 ^ d + 2 ^ d = bm := by omega
  rw [heq] at this
  omega

theorem indexBelow_ge_one (bm d w : Nat) (hd : hasB bm d = true) (hw : d < w) :
    1 ≤ indexBelow bm w := by
  have := indexBelow_lt_of_hasB bm d w hd hw
  omega

theorem setBit_lt_pow (d : Nat) : ∀ (bm w : Nat), bm < 2 ^ w → d < w → hasB bm d = false →
    bm + 2 ^ d < 2 ^ w := by
  induction d with
  | zero =>
    intro bm w hbm hw hd
    rw [hasB_false_iff] at hd
    simp only [Nat.pow_zero, Nat.div_one] at hd
    cases w with
    | zero => omega
    | succ e =>
      have h2 : 2 ^ (e + 1) = 2 ^ e * 2 := Nat.pow_succ 2 e
      omega
  | succ δ ih =>
    intro bm w hbm hw hd
    cases w with
    | zero => omega
    | succ e =>
      have hstep : hasB (bm / 2) δ = false := by rw [← hasB_succ]; exact hd
      have hih := ih (bm / 2) e (by rw [Nat.pow_succ] at hbm; omega) (by omega) hstep
      have hp : 2 ^ (δ + 1) = 2 ^ δ * 2 := Nat.pow_succ 2 δ
      have hq : 2 ^ (e + 1) = 2 ^ e * 2 := Nat.pow_succ 2 e
      omega

/-! ### childAt lemmas -/

theorem filterMap_map_own {A B C : Type} (l : List A) (g : A → B) (f : B → Option C) :
    (l.map g).filterMap f = l.filterMap (fun a => f (g a)) := by
  induction l with
  | nil => rfl
  | cons a t ih => cases hf : f (g a) <;> simp [List.filterMap_cons, hf, ih]

theorem filterMap_congr_own {A B : Type} (l : List A) (f g : A → Option B)
    (h : ∀ a ∈ l, f a = g a) : l.filterMap f = l.filterMap g := by
  induction l with
  | nil => rfl
  | cons a t ih =>
    rw [List.filterMap_cons, List.filterMap_cons, h a (by simp),
      ih (fun b hb => h b (by simp [hb]))]

theorem childAt_succ {K V : Type} (bm : Nat) (cs : List (HAMTNode K V)) (d : Nat) :
    childAt bm cs (d + 1) = childAt (bm / 2) (if bm % 2 = 1 then cs.tail else cs) d := by
  unfold childAt
  rw [hasB_succ]
  by_cases hh : hasB (bm / 2) d = true
  · simp only [hh, if_true]
    have hidx : indexBelow bm (d + 1) = bm % 2 + indexBelow (bm / 2) d := rfl
    by_cases hb : bm % 2 = 1
    · simp only [hb, if_true]
      rw [hidx, hb]
      have h1 : 1 + indexBelow (bm / 2) d = indexBelow (bm / 2) d + 1 := by omega
      rw [h1]
      cases cs <;> simp
    · simp only [hb, if_false]
      have hb0 : bm % 2 = 0 := by omega
      rw [hidx, hb0, Nat.zero_add]
  · simp only [Bool.not_eq_true] at hh
    simp [hh]

theorem childAt_zero_set {K V : Type} (bm : Nat) (cs : List (HAMTNode K V)) :
    hasB bm 0 = true → childAt bm cs 0 = cs.get? 0 := by
  intro h
  unfold childAt
  simp [h, indexBelow]

theorem childAt_zero_unset {K V : Type} (bm : Nat) (cs : List (HAMTNode K V)) :
    hasB bm 0 = false → childAt bm cs 0 = none := by
  intro h
  unfold childAt
  simp [h]

theorem childAt_insert {K V : Type} :
    ∀ (d bm : Nat) (cs : List (HAMTNode K V)) (w : Nat) (x : HAMTNode K V),
      bm < 2 ^ w → cs.length = indexBelow bm w → hasB bm d = false →
      ∀ d2, childAt (bm + 2 ^ d) (insertAtL cs (indexBelow bm d) x) d2 =
        if d2 = d then some x else childAt bm cs d2 := by
  intro d
  induction d with
  | zero =>
    intro bm cs w x hbm hlen hd d2
    have hb0 : bm % 2 = 0 := by
      have := (hasB_false_iff bm 0).mp hd
      simpa using this
    have hidx : indexBelow bm 0 = 0 := rfl
    rw [hidx]
    cases d2 with
    | zero =>
      rw [if_pos rfl]
      have h1 : hasB (bm + 2 ^ 0) 0 = true := hasB_add_pow_self bm 0 hd
      rw [childAt_zero_set _ _ h1]
      simp [insertAtL]
    | succ e =>
      rw [if_neg (by omega)]
      rw [childAt_succ, childAt_succ]
      have h1 : (bm + 2 ^ 0) % 2 = 1 := by simp [Nat.pow_zero]; omega
      have h2 : (bm + 2 ^ 0) / 2 = bm / 2 := by simp [Nat.pow_zero]; omega
      rw [h1, h2]
      simp [insertAtL, hb0]
  | succ δ ih =>
    intro bm cs w x hbm hlen hd d2
    have hstep : hasB (bm / 2) δ = false := by rw [← hasB_succ]; exact hd
    have hp : (2 : Nat) ^ (δ + 1) = 2 ^ δ * 2 := Nat.pow_succ 2 δ
    have h1 : (bm + 2 ^ (δ + 1)) % 2 = bm % 2 := by rw [hp]; omega
    have h2 : (bm + 2 ^ (δ + 1)) / 2 = bm / 2 + 2 ^ δ := by rw [hp]; omega
    have hidx : indexBelow bm (δ + 1) = bm % 2 + indexBelow (bm / 2) δ := rfl
    cases w with
    | zero =>
      have hbm0 : bm = 0 := by omega
      subst hbm0
      have hcs : cs = [] := List.length_eq_zero.mp (by simpa [indexBelow] using hlen)
      subst hcs
      rw [hidx]
      simp only [indexBelow_zero_left, Nat.zero_mod, Nat.zero_add, Nat.zero_div]
      cases d2 with
      | zero =>
        rw [if_neg (by omega)]
        have hL : hasB (2 ^ (δ + 1)) 0 = false := by
          rw [hasB_false_iff]
          simp only [Nat.pow_zero, Nat.div_one]
          rw [hp]; omega
        have hR : hasB 0 0 = false := by rw [hasB_false_iff]; simp
        rw [childAt_zero_unset _ _ hL, childAt_zero_unset _ _ hR]
      | succ e =>
        rw [childAt_succ, childAt_succ]
        have hL2 : (2 ^ (δ + 1)) % 2 = 0 := by rw [hp]; omega
        have hL3 : (2 ^ (δ + 1)) / 2 = 2 ^ δ := by rw [hp]; omega
        rw [hL2, hL3]
        simp only [Nat.zero_mod, Nat.zero_div, if_neg (by omega : ¬ (0 : Nat) = 1)]
        have hrec := ih 0 [] 0 x (by norm_num) rfl
          (by rw [hasB_false_iff]; simp) e
        simp only [indexBelow_zero_left, Nat.zero_add] at hrec
        rw [hrec]
        by_cases he : e = δ
        · simp [he]
        · simp only [he, if_false, if_neg (show ¬ e + 1 = δ + 1 by omega)]
    | succ w2 =>
      have hblt : bm / 2 < 2 ^ w2 := by rw [Nat.pow_succ] at hbm; omega
      by_cases hb1 : bm % 2 = 1
      · have hbit0 : hasB bm 0 = true := by rw [hasB_true_iff]; simpa using hb1
        have hlenpos : 1 ≤ cs.length := by
          rw [hlen]; exact indexBelow_ge_one bm 0 (w2 + 1) hbit0 (by omega)
        obtain ⟨c0, t, rfl⟩ : ∃ c0 t, cs = c0 :: t := by
          cases cs with
          | nil => simp at hlenpos
          | cons a b => exact ⟨a, b, rfl⟩
        have hlent : t.length = indexBelow (bm / 2) w2 := by
          have h3 : (c0 :: t).length = bm % 2 + indexBelow (bm / 2) w2 := hlen
          simp only [List.length_cons] at h3
          omega
        have hins : insertAtL (c0 :: t) (indexBelow bm (δ + 1)) x
            = c0 :: insertAtL t (indexBelow (bm / 2) δ) x := by
          rw [hidx, hb1]
          have h4 : 1 + indexBelow (bm / 2) δ = indexBelow (bm / 2) δ + 1 := by omega
          rw [h4]
          rfl
        rw [hins]
        cases d2 with
        | zero =>
          rw [if_neg (by omega)]
          have hL : hasB (bm + 2 ^ (δ + 1)) 0 = true := by
            rw [hasB_true_iff]
            simp only [Nat.pow_zero, Nat.div_one]
            omega
          rw [childAt_zero_set _ _ hL, childAt_zero_set _ _ hbit0]
          rfl
        | succ e =>
          rw [childAt_succ, childAt_succ, h1, h2]
          simp only [hb1, if_true, List.tail_cons]
          rw [ih (bm / 2) t w2 x hblt hlent hstep e]
          by_cases he : e = δ
          · simp [he]
          · simp [he, if_neg (by omega : ¬ e + 1 = δ + 1)]
      · have hb0 : bm % 2 = 0 := by omega
        have hlent : cs.length = indexBelow (bm / 2) w2 := by
          have h3 : cs.length = bm % 2 + indexBelow (bm / 2) w2 := hlen
          omega
        have hins : insertAtL cs (indexBelow bm (δ + 1)) x
            = insertAtL cs (indexBelow (bm / 2) δ) x := by
          rw [hidx, hb0, Nat.zero_add]
        rw [hins]
        cases d2 with
        | zero =>
          rw [if_neg (by omega)]
          have hL : hasB (bm + 2 ^ (δ + 1)) 0 = false := by
            rw [hasB_false_iff]
            simp only [Nat.pow_zero, Nat.div_one]
            omega
          have hR : hasB bm 0 = false := by
            rw [hasB_false_iff]
            simpa using hb0
          rw [childAt_zero_unset _ _ hL, childAt_zero_unset _ _ hR]
        | succ e =>
          rw [childAt_succ, childAt_succ, h1, h2]
          simp only [hb0, if_neg (by omega : ¬ (0 : Nat) = 1)]
          rw [ih (bm / 2) cs w2 x hblt hlent hstep e]
          by_cases he : e = δ
          · simp [he]
          · simp [he, if_neg (by omega : ¬ e + 1 = δ + 1)]

theorem childAt_set {K V : Type} :
    ∀ (d bm : Nat) (cs : List (HAMTNode K V)) (w : Nat) (x : HAMTNode K V),
      cs.length = indexBelow bm w → hasB bm d = true → d < w →
      ∀ d2, childAt bm (cs.set (indexBelow bm d) x) d2 =
        if d2 = d then some x else childAt bm cs d2 := by
  intro d
  induction d with
  | zero =>
    intro bm cs w x hlen hd hw
    have hb1 : bm % 2 = 1 := by
      have := (hasB_true_iff bm 0).mp hd
      simpa using this
    have hlenpos : 1 ≤ cs.length := by
      rw [hlen]; exact indexBelow_ge_one bm 0 w hd hw
    obtain ⟨c0, t, rfl⟩ : ∃ c0 t, cs = c0 :: t := by
      cases cs with
      | nil => simp at hlenpos
      | cons a b => exact ⟨a, b, rfl⟩
    intro d2
    have hidx : indexBelow bm 0 = 0 := rfl
    rw [hidx]
    cases d2 with
    | zero =>
      rw [if_pos rfl, childAt_zero_set _ _ hd]
      rfl
    | succ e =>
      rw [if_neg (by omega), childAt_succ, childAt_succ]
      simp [hb1]
  | succ δ ih =>
    intro bm cs w x hlen hd hw
    have hstep : hasB (bm / 2) δ = true := by rw [← hasB_succ]; exact hd
    have hidx : indexBelow bm (δ + 1) = bm % 2 + indexBelow (bm / 2) δ := rfl
    cases w with
    | zero => omega
    | succ w2 =>
      intro d2
      by_cases hb1 : bm % 2 = 1
      · have hbit0 : hasB bm 0 = true := by rw [hasB_true_iff]; simpa using hb1
        have hlenpos : 1 ≤ cs.length := by
          rw [hlen]; exact indexBelow_ge_one bm 0 (w2 + 1) hbit0 (by omega)
        obtain ⟨c0, t, rfl⟩ : ∃ c0 t, cs = c0 :: t := by
          cases cs with
          | nil => simp at hlenpos
          | cons a b => exact ⟨a, b, rfl⟩
        have hlent : t.length = indexBelow (bm / 2) w2 := by
          have h3 : (c0 :: t).length = bm % 2 + indexBelow (bm / 2) w2 := hlen
          simp only [List.length_cons] at h3
          omega
        have hset : (c0 :: t).set (indexBelow bm (δ + 1)) x
            = c0 :: t.set (indexBelow (bm / 2) δ) x := by
          rw [hidx, hb1]
          have h4 : 1 + indexBelow (bm / 2) δ = indexBelow (bm / 2) δ + 1 := by omega
          rw [h4]
          rfl
        rw [hset]
        cases d2 with
        | zero =>
          rw [if_neg (by omega), childAt_zero_set _ _ hbit0, childAt_zero_set _ _ hbit0]
          rfl
        | succ e =>
          rw [childAt_succ, childAt_succ]
          simp only [hb1, if_true, List.tail_cons]
          rw [ih (bm / 2) t w2 x hlent hstep (by omega) e]
          by_cases he : e = δ
          · simp [he]
          · simp only [he, if_false, if_neg (show ¬ e + 1 = δ + 1 by omega)]
      · have hb0 : bm % 2 = 0 := by omega
        have hlent : cs.length = indexBelow (bm / 2) w2 := by
          have h3 : cs.length = bm % 2 + indexBelow (bm / 2) w2 := hlen
          omega
        have hset : cs.set (indexBelow bm (δ + 1)) x
            = cs.set (indexBelow (bm / 2) δ) x := by
          rw [hidx, hb0, Nat.zero_add]
        rw [hset]
        cases d2 with
        | zero =>
          have hR : hasB bm 0 = false := by rw [hasB_false_iff]; simpa using hb0
          rw [if_neg (by omega), childAt_zero_unset _ _ hR, childAt_zero_unset _ _ hR]
        | succ e =>
          rw [childAt_succ, childAt_succ]
          simp only [hb0, if_neg (show ¬ (0 : Nat) = 1 by omega)]
          rw [ih (bm / 2) cs w2 x hlent hstep (by omega) e]
          by_cases he : e = δ
          · simp [he]
          · simp only [he, if_false, if_neg (show ¬ e + 1 = δ + 1 by omega)]

theorem childAt_remove {K V : Type} :
    ∀ (d bm : Nat) (cs : List (HAMTNode K V)) (w : Nat),
      cs.length = indexBelow bm w → hasB bm d = true → d < w →
      ∀ d2, childAt (bm - 2 ^ d) (removeAtL cs (indexBelow bm d)) d2 =
        if d2 = d then none else childAt bm cs d2 := by
  intro d
  induction d with
  | zero =>
    intro bm cs w hlen hd hw
    have hb1 : bm % 2 = 1 := by
      have := (hasB_true_iff bm 0).mp hd
      simpa using this
    have hlenpos : 1 ≤ cs.length := by
      rw [hlen]; exact indexBelow_ge_one bm 0 w hd hw
    obtain ⟨c0, t, rfl⟩ : ∃ c0 t, cs = c0 :: t := by
      cases cs with
      | nil => simp at hlenpos
      | cons a b => exact ⟨a, b, rfl⟩
    intro d2
    have hidx : indexBelow bm 0 = 0 := rfl
    rw [hidx]
    have hrm : removeAtL (c0 :: t) 0 = t := rfl
    rw [hrm]
    have hm1 : (bm - 2 ^ 0) % 2 = 0 := by simp only [Nat.pow_zero]; omega
    have hm2 : (bm - 2 ^ 0) / 2 = bm / 2 := by simp only [Nat.pow_zero]; omega
    cases d2 with
    | zero =>
      rw [if_pos rfl]
      have hL : hasB (bm - 2 ^ 0) 0 = false := hasB_sub_pow_self bm 0 hd
      rw [childAt_zero_unset _ _ hL]
    | succ e =>
      rw [if_neg (by omega), childAt_succ, childAt_succ, hm1, hm2]
      simp [hb1]
  | succ δ ih =>
    intro bm cs w hlen hd hw
    have hstep : hasB (bm / 2) δ = true := by rw [← hasB_succ]; exact hd
    have hp : (2 : Nat) ^ (δ + 1) = 2 ^ δ * 2 := Nat.pow_succ 2 δ
    have hge : 2 ^ (δ + 1) ≤ bm := by
      have := (hasB_true_iff bm (δ + 1)).mp hd
      by_contra hlt
      rw [Nat.div_eq_of_lt (by omega)] at this
      omega
    have hm1 : (bm - 2 ^ (δ + 1)) % 2 = bm % 2 := by rw [hp] at hge ⊢; omega
    have hm2 : (bm - 2 ^ (δ + 1)) / 2 = bm / 2 - 2 ^ δ := by rw [hp] at hge ⊢; omega
    have hidx : indexBelow bm (δ + 1) = bm % 2 + indexBelow (bm / 2) δ := rfl
    cases w with
    | zero => omega
    | succ w2 =>
      intro d2
      by_cases hb1 : bm % 2 = 1
      · have hbit0 : hasB bm 0 = true := by rw [hasB_true_iff]; simpa using hb1
        have hlenpos : 1 ≤ cs.length := by
          rw [hlen]; exact indexBelow_ge_one bm 0 (w2 + 1) hbit0 (by omega)
        obtain ⟨c0, t, rfl⟩ : ∃ c0 t, cs = c0 :: t := by
          cases cs with
          | nil => simp at hlenpos
          | cons a b => exact ⟨a, b, rfl⟩
        have hlent : t.length = indexBelow (bm / 2) w2 := by
          have h3 : (c0 :: t).length = bm % 2 + indexBelow (bm / 2) w2 := hlen
          simp only [List.length_cons] at h3
          omega
        have hrm : removeAtL (c0 :: t) (indexBelow bm (δ + 1))
            = c0 :: removeAtL t (indexBelow (bm / 2) δ) := by
          rw [hidx, hb1]
          have h4 : 1 + indexBelow (bm / 2) δ = indexBelow (bm / 2) δ + 1 := by omega
          rw [h4]
          rfl
        rw [hrm]
        cases d2 with
        | zero =>
          have hL : hasB (bm - 2 ^ (δ + 1)) 0 = true := by
            rw [hasB_true_iff]
            simp only [Nat.pow_zero, Nat.div_one]
            omega
          rw [if_neg (by omega), childAt_zero_set _ _ hL, childAt_zero_set _ _ hbit0]
          rfl
        | succ e =>
          rw [childAt_succ, childAt_succ, hm1, hm2]
          simp only [hb1, if_true, List.tail_cons]
          rw [ih (bm / 2) t w2 hlent hstep (by omega) e]
          by_cases he : e = δ
          · simp [he]
          · simp only [he, if_false, if_neg (show ¬ e + 1 = δ + 1 by omega)]
      · have hb0 : bm % 2 = 0 := by omega
        have hlent : cs.length = indexBelow (bm / 2) w2 := by
          have h3 : cs.length = bm % 2 + indexBelow (bm / 2) w2 := hlen
          omega
        have hrm : removeAtL cs (indexBelow bm (δ + 1))
            = removeAtL cs (indexBelow (bm / 2) δ) := by
          rw [hidx, hb0, Nat.zero_add]
        rw [hrm]
        cases d2 with
        | zero =>
          have hR : hasB bm 0 = false := by rw [hasB_false_iff]; simpa using hb0
          have hL : hasB (bm - 2 ^ (δ + 1)) 0 = false := by
            rw [hasB_false_iff]
            simp only [Nat.pow_zero, Nat.div_one]
            omega
          rw [if_neg (by omega), childAt_zero_unset _ _ hL, childAt_zero_unset _ _ hR]
        | succ e =>
          rw [childAt_succ, childAt_succ, hm1, hm2]
          simp only [hb0, if_neg (show ¬ (0 : Nat) = 1 by omega)]
          rw [ih (bm / 2) cs w2 hlent hstep (by omega) e]
          by_cases he : e = δ
          · simp [he]
          · simp only [he, if_false, if_neg (show ¬ e + 1 = δ + 1 by omega)]

theorem children_decomp {K V : Type} :
    ∀ (w bm : Nat) (cs : List (HAMTNode K V)), bm < 2 ^ w →
      cs.length = indexBelow bm w →
      cs = (List.range w).filterMap (fun d => childAt bm cs d) := by
  intro w
  induction w with
  | zero =>
    intro bm cs hbm hlen
    have : bm = 0 := by omega
    subst this
    have : cs = [] := List.length_eq_zero.mp (by simpa [indexBelow] using hlen)
    subst this
    rfl
  | succ e ih =>
    intro bm cs hbm hlen
    rw [List.range_succ_eq_map]
    have hblt : bm / 2 < 2 ^ e := by rw [Nat.pow_succ] at hbm; omega
    have hlen2 : cs.length = bm % 2 + indexBelow (bm / 2) e := hlen
    simp only [List.filterMap_cons]
    rw [filterMap_map_own]
    by_cases hb1 : bm % 2 = 1
    · have hbit0 : hasB bm 0 = true := by rw [hasB_true_iff]; simpa using hb1
      obtain ⟨c0, t, rfl⟩ : ∃ c0 t, cs = c0 :: t := by
        cases cs with
        | nil =>
          exfalso
          simp only [List.length_nil, hb1] at hlen2
          omega
        | cons a b => exact ⟨a, b, rfl⟩
      have hlent : t.length = indexBelow (bm / 2) e := by
        simp only [List.length_cons] at hlen2
        omega
      have h0 : childAt bm (c0 :: t) 0 = some c0 := by
        rw [childAt_zero_set _ _ hbit0]
        rfl
      have hsucc : ∀ d2, childAt bm (c0 :: t) (d2 + 1) = childAt (bm / 2) t d2 := by
        intro d2
        rw [childAt_succ]
        simp [hb1]
      rw [h0]
      congr 1
      conv_lhs => rw [ih (bm / 2) t hblt hlent]
      exact filterMap_congr_own _ _ _ (fun a _ => (hsucc a).symm)
    · have hb0 : bm % 2 = 0 := by omega
      have hbit0 : hasB bm 0 = false := by rw [hasB_false_iff]; simpa using hb0
      have hlent : cs.length = indexBelow (bm / 2) e := by omega
      have h0 : childAt bm cs 0 = none := childAt_zero_unset _ _ hbit0
      have hsucc : ∀ d2, childAt bm cs (d2 + 1) = childAt (bm / 2) cs d2 := by
        intro d2
        rw [childAt_succ]
        simp [hb0]
      rw [h0]
      conv_lhs => rw [ih (bm / 2) cs hblt hlent]
      exact filterMap_congr_own _ _ _ (fun a _ => (hsucc a).symm)

/-! ### hentries and node-operation unfolding -/

theorem hentries_leaf {K V : Type} (h : Int) (k : K) (v : V) :
    hentries (.leaf h k v : HAMTNode K V) = [(h, k, v)] := by
  rw [hentries]

theorem hentries_bi {K V : Type} (bm : Nat) (cs : List (HAMTNode K V)) :
    hentries (.bitmapIndexed bm cs : HAMTNode K V) = cs.flatMap hentries := by
  rw [hentries]
  exact attach_flatMap cs hentries

theorem hentries_decompose {K V : Type} (bm : Nat) (cs : List (HAMTNode K V))
    (hbm : bm < 2 ^ 32) (hlen : cs.length = popcount bm) :
    hentries (.bitmapIndexed bm cs : HAMTNode K V) = entriesAtDigits bm cs := by
  rw [hentries_bi]
  unfold entriesAtDigits
  conv_lhs => rw [children_decomp 32 bm cs hbm hlen]
  rw [flatMap_filterMap]

theorem childAt_lt_32 {K V : Type} (bm : Nat) (cs : List (HAMTNode K V)) (d : Nat)
    (c : HAMTNode K V) (hbm : bm < 2 ^ 32) (hc : childAt bm cs d = some c) :
    d < 32 := by
  by_contra hge
  have hlt : bm < 2 ^ d :=
    Nat.lt_of_lt_of_le hbm (Nat.pow_le_pow_right (by norm_num) (by omega))
  unfold childAt at hc
  rw [hasB_of_lt_pow bm d hlt] at hc
  simp at hc

theorem mem_hentries_bi {K V : Type} (bm : Nat) (cs : List (HAMTNode K V))
    (e : Int × K × V) (hbm : bm < 2 ^ 32) (hlen : cs.length = popcount bm) :
    e ∈ hentries (.bitmapIndexed bm cs : HAMTNode K V) ↔
      ∃ d c, childAt bm cs d = some c ∧ e ∈ hentries c := by
  rw [hentries_decompose bm cs hbm hlen]
  unfold entriesAtDigits
  rw [List.mem_flatMap]
  constructor
  · rintro ⟨d, hd, hmem⟩
    cases hc : childAt bm cs d with
    | none => rw [hc] at hmem; simp at hmem
    | some c =>
      rw [hc] at hmem
      exact ⟨d, c, hc, by simpa using hmem⟩
  · rintro ⟨d, c, hc, hmem⟩
    refine ⟨d, ?_, ?_⟩
    · simp only [List.mem_range]
      exact childAt_lt_32 bm cs d c hbm hc
    · rw [hc]
      simpa using hmem

theorem getNode_leaf {K V : Type} (h0 : Int) (k0 : K) (v0 : V) (h : Int) (s : Nat) :
    getNode (.leaf h0 k0 v0 : HAMTNode K V) h s = if h = h0 then some v0 else none := by
  rw [getNode]

theorem getNode_bi {K V : Type} (bm : Nat) (cs : List (HAMTNode K V)) (h : Int) (s : Nat) :
    getNode (.bitmapIndexed bm cs : HAMTNode K V) h s =
      match childAt bm cs (digit h s) with
      | some c => getNode c h (s + 5)
      | none => none := by
  unfold childAt
  by_cases hb : hasB bm (digit h s) = true
  · rw [getNode]
    simp only [hb, if_true]
    cases hgc : cs.get? (indexBelow bm (digit h s)) <;> simp [hgc]
  · have hb2 : hasB bm (digit h s) = false := by simpa using hb
    rw [getNode]
    simp [hb2]

theorem containsNode_leaf {K V : Type} (h0 : Int) (k0 : K) (v0 : V) (h : Int) (s : Nat) :
    containsNode (.leaf h0 k0 v0 : HAMTNode K V) h s = decide (h = h0) := by
  rw [containsNode]

theorem containsNode_bi {K V : Type} (bm : Nat) (cs : List (HAMTNode K V)) (h : Int) (s : Nat) :
    containsNode (.bitmapIndexed bm cs : HAMTNode K V) h s =
      match childAt bm cs (digit h s) with
      | some c => containsNode c h (s + 5)
      | none => false := by
  unfold childAt
  by_cases hb : hasB bm (digit h s) = true
  · rw [containsNode]
    simp only [hb, if_true]
    cases hgc : cs.get? (indexBelow bm (digit h s)) <;> simp [hgc]
  · have hb2 : hasB bm (digit h s) = false := by simpa using hb
    rw [containsNode]
    simp [hb2]

theorem addNode_leaf {K V : Type} (h0 : Int) (k0 : K) (v0 : V) (h : Int) (s : Nat)
    (k : K) (v : V) :
    addNode (.leaf h0 k0 v0 : HAMTNode K V) h s k v =
      if h = h0 then .leaf h k v else splitLeaf h0 k0 v0 h k v 8 s := by
  rw [addNode]

theorem addNode_bi {K V : Type} (bm : Nat) (cs : List (HAMTNode K V)) (h : Int)
    (s : Nat) (k : K) (v : V) :
    addNode (.bitmapIndexed bm cs : HAMTNode K V) h s k v =
      if hasB bm (digit h s) then
        match childAt bm cs (digit h s) with
        | some c =>
            .bitmapIndexed bm
              (cs.set (indexBelow bm (digit h s)) (addNode c h (s + 5) k v))
        | none => .bitmapIndexed bm cs
      else
        .bitmapIndexed (setBit bm (digit h s))
          (insertAtL cs (indexBelow bm (digit h s)) (.leaf h k v)) := by
  unfold childAt
  by_cases hb : hasB bm (digit h s) = true
  · rw [addNode]
    simp only [hb, if_true]
    cases hgc : cs.get? (indexBelow bm (digit h s)) <;> simp [hgc]
  · have hb2 : hasB bm (digit h s) = false := by simpa using hb
    rw [addNode]
    simp [hb2]

theorem removeNode_leaf {K V : Type} (h0 : Int) (k0 : K) (v0 : V) (h : Int) (s : Nat) :
    removeNode (.leaf h0 k0 v0 : HAMTNode K V) h s =
      if h = h0 then none else some (.leaf h0 k0 v0) := by
  rw [removeNode]

theorem removeNode_bi {K V : Type} (bm : Nat) (cs : List (HAMTNode K V)) (h : Int)
    (s : Nat) :
    removeNode (.bitmapIndexed bm cs : HAMTNode K V) h s =
      if hasB bm (digit h s) then
        match childAt bm cs (digit h s) with
        | some c =>
            match removeNode c h (s + 5) with
            | some c2 =>
                some (.bitmapIndexed bm (cs.set (indexBelow bm (digit h s)) c2))
            | none =>
                if (removeAtL cs (indexBelow bm (digit h s))).isEmpty then none
                else
                  some (.bitmapIndexed (clearBit bm (digit h s))
                    (removeAtL cs (indexBelow bm (digit h s))))
        | none => some (.bitmapIndexed bm cs)
      else some (.bitmapIndexed bm cs) := by
  unfold childAt
  by_cases hb : hasB bm (digit h s) = true
  · rw [removeNode]
    simp only [hb, if_true]
    cases hgc : cs.get? (indexBelow bm (digit h s)) <;> simp [hgc]
  · have hb2 : hasB bm (digit h s) = false := by simpa using hb
    rw [removeNode]
    simp [hb2]

theorem noEmptyB_leaf {K V : Type} (h : Int) (k : K) (v : V) :
    noEmptyB (.leaf h k v : HAMTNode K V) = true := by
  rw [noEmptyB]

theorem noEmptyB_bi {K V : Type} (bm : Nat) (cs : List (HAMTNode K V)) :
    noEmptyB (.bitmapIndexed bm cs : HAMTNode K V)
      = (!cs.isEmpty && cs.all noEmptyB) := by
  rw [noEmptyB]
  rw [attach_all cs noEmptyB]

/-! ### splitLeaf lemmas -/

theorem hasB_pow (a b : Nat) : hasB (2 ^ a) b = decide (b = a) := by
  rcases Nat.lt_trichotomy b a with h | h | h
  · have hd : (2 : Nat) ^ a / 2 ^ b = 2 ^ (a - b) :=
      Nat.pow_div (by omega) (by norm_num)
    have he : (2 : Nat) ^ (a - b) % 2 = 0 := by
      have : a - b = (a - b - 1) + 1 := by omega
      rw [this, Nat.pow_succ]
      omega
    rw [hasB, hd, he]
    simp
    omega
  · subst h
    rw [hasB, Nat.div_self (Nat.pos_pow_of_pos b (by norm_num))]
    simp
  · have hd : (2 : Nat) ^ a / 2 ^ b = 0 :=
      Nat.div_eq_of_lt (Nat.pow_lt_pow_right (by norm_num) h)
    rw [hasB, hd]
    simp
    omega

theorem indexBelow_pow_le : ∀ (d2 d1 : Nat), d2 ≤ d1 → indexBelow (2 ^ d1) d2 = 0 := by
  intro d2
  induction d2 with
  | zero => intro d1 _; rfl
  | succ e ih =>
    intro d1 hle
    show 2 ^ d1 % 2 + indexBelow (2 ^ d1 / 2) e = 0
    have h1 : (2 : Nat) ^ d1 % 2 = 0 := by
      have : d1 = (d1 - 1) + 1 := by omega
      rw [this, Nat.pow_succ]
      omega
    have h2 : (2 : Nat) ^ d1 / 2 = 2 ^ (d1 - 1) := by
      have : d1 = (d1 - 1) + 1 := by omega
      conv_lhs => rw [this, Nat.pow_succ]
      omega
    rw [h1, h2, ih (d1 - 1) (by omega)]

theorem indexBelow_pow_gt (d1 d2 : Nat) (h : d1 < d2) : indexBelow (2 ^ d1) d2 = 1 := by
  have := indexBelow_add_pow d1 0 d2 h (by rw [hasB_false_iff]; simp)
  simpa [indexBelow_zero_left] using this

theorem popcount_pow (d : Nat) (hd : d < 32) : popcount (2 ^ d) = 1 := by
  unfold popcount
  exact indexBelow_pow_gt d 32 hd

theorem childAt_single {K V : Type} (d : Nat) (c : HAMTNode K V) (d2 : Nat) :
    childAt (2 ^ d) [c] d2 = if d2 = d then some c else none := by
  have h := childAt_insert d 0 [] 0 c (by norm_num) rfl
    (by rw [hasB_false_iff]; simp) d2
  simp only [indexBelow_zero_left, Nat.zero_add] at h
  rw [show insertAtL ([] : List (HAMTNode K V)) 0 c = [c] from rfl] at h
  rw [h]
  by_cases hd : d2 = d
  · simp [hd]
  · simp only [hd, if_false]
    show childAt 0 [] d2 = none
    unfold childAt
    have hz : hasB 0 d2 = false := hasB_of_lt_pow 0 d2 (Nat.pos_pow_of_pos d2 (by norm_num))
    simp [hz]

theorem childAt_pair {K V : Type} (d1 d2 : Nat) (c1 c2 : HAMTNode K V)
    (hlt : d1 < d2) (d3 : Nat) :
    childAt (2 ^ d1 + 2 ^ d2) [c1, c2] d3 =
      if d3 = d2 then some c2 else if d3 = d1 then some c1 else none := by
  have hlen1 : ([c1] : List (HAMTNode K V)).length = indexBelow (2 ^ d1) (d1 + 1) := by
    rw [indexBelow_succ_split, indexBelow_pow_le d1 d1 (by omega),
      Nat.div_self (Nat.pos_pow_of_pos d1 (by norm_num))]
    simp
  have hset : hasB (2 ^ d1) d2 = false := by
    rw [hasB_pow]
    simp
    omega
  have h := childAt_insert d2 (2 ^ d1) [c1] (d1 + 1) c2
    (Nat.pow_lt_pow_right (by norm_num) (by omega)) hlen1 hset d3
  rw [indexBelow_pow_gt d1 d2 hlt] at h
  rw [show insertAtL [c1] 1 c2 = [c1, c2] from rfl] at h
  rw [h, childAt_single d1 c1 d3]

theorem hentries_single {K V : Type} (d : Nat) (c : HAMTNode K V) :
    hentries (.bitmapIndexed (setBit 0 d) [c] : HAMTNode K V) = hentries c := by
  rw [hentries_bi]
  simp

theorem mem_hentries_split {K V : Type} (h1 : Int) (k1 : K) (v1 : V) (h2 : Int)
    (k2 : K) (v2 : V) :
    ∀ (fuel s : Nat) (e : Int × K × V),
      e ∈ hentries (splitLeaf h1 k1 v1 h2 k2 v2 fuel s) →
      e = (h1, k1, v1) ∨ e = (h2, k2, v2) := by
  intro fuel
  induction fuel with
  | zero =>
    intro s e he
    rw [splitLeaf, hentries_leaf] at he
    simp at he
    exact Or.inr he
  | succ f ih =>
    intro s e he
    rw [splitLeaf] at he
    by_cases hd : digit h1 s = digit h2 s
    · rw [if_pos hd] at he
      rw [hentries_single] at he
      exact ih (s + 5) e he
    · rw [if_neg hd] at he
      by_cases hlt : digit h1 s < digit h2 s
      · rw [if_pos hlt] at he
        rw [hentries_bi] at he
        simp [hentries_leaf] at he
        rcases he with h | h
        · exact Or.inl h
        · exact Or.inr h
      · rw [if_neg hlt] at he
        rw [hentries_bi] at he
        simp [hentries_leaf] at he
        rcases he with h | h
        · exact Or.inr h
        · exact Or.inl h

theorem hentries_split_perm {K V : Type} (h1 : Int) (k1 : K) (v1 : V) (h2 : Int)
    (k2 : K) (v2 : V) :
    ∀ (fuel s : Nat), (∃ j < fuel, digit h1 (s + 5 * j) ≠ digit h2 (s + 5 * j)) →
      List.Perm (hentries (splitLeaf h1 k1 v1 h2 k2 v2 fuel s))
        [(h1, k1, v1), (h2, k2, v2)] := by
  intro fuel
  induction fuel with
  | zero =>
    intro s hj
    obtain ⟨j, hj1, _⟩ := hj
    omega
  | succ f ih =>
    intro s hj
    rw [splitLeaf]
    by_cases hd : digit h1 s = digit h2 s
    · rw [if_pos hd]
      rw [hentries_single]
      refine ih (s + 5) ?_
      obtain ⟨j, hj1, hj2⟩ := hj
      cases j with
      | zero => simp at hj2; exact absurd hd hj2
      | succ j2 =>
        refine ⟨j2, by omega, ?_⟩
        have : s + 5 + 5 * j2 = s + 5 * (j2 + 1) := by omega
        rw [this]
        exact hj2
    · rw [if_neg hd]
      by_cases hlt : digit h1 s < digit h2 s
      · rw [if_pos hlt]
        rw [hentries_bi]
        simp [hentries_leaf]
      · rw [if_neg hlt]
        rw [hentries_bi]
        simp [hentries_leaf]
        exact List.Perm.swap _ _ _

theorem wf_split {K V : Type} (h1 : Int) (k1 : K) (v1 : V) (h2 : Int) (k2 : K)
    (v2 : V) : ∀ (fuel s : Nat), Wf (splitLeaf h1 k1 v1 h2 k2 v2 fuel s) s := by
  intro fuel
  induction fuel with
  | zero => intro s; rw [splitLeaf]; exact Wf.leaf h2 k2 v2 s
  | succ f ih =>
    intro s
    rw [splitLeaf]
    have hd1 : digit h1 s < 32 := digit_lt_32 h1 s
    have hd2 : digit h2 s < 32 := digit_lt_32 h2 s
    have hs1 : setBit 0 (digit h1 s) = 2 ^ digit h1 s := by
      rw [setBit_unset]
      · simp
      · rw [hasB_false_iff]; simp
    by_cases hd : digit h1 s = digit h2 s
    · rw [if_pos hd]
      refine Wf.bitmapIndexed _ _ _ ?_ ?_ ?_ ?_
      · rw [hs1]
        exact Nat.pow_lt_pow_right (by norm_num) hd1
      · rw [hs1]
        simp [popcount_pow _ hd1]
      · intro d c hc
        rw [hs1, childAt_single] at hc
        by_cases hdd : d = digit h1 s
        · rw [if_pos hdd] at hc
          cases hc
          exact ih (s + 5)
        · rw [if_neg hdd] at hc
          cases hc
      · intro d c hc e he
        rw [hs1, childAt_single] at hc
        by_cases hdd : d = digit h1 s
        · rw [if_pos hdd] at hc
          cases hc
          rcases mem_hentries_split h1 k1 v1 h2 k2 v2 f (s + 5) e he with h | h
          · rw [h, hdd]
          · rw [h, hdd]
            exact hd.symm
        · rw [if_neg hdd] at hc
          cases hc
    · rw [if_neg hd]
      have hs2 : setBit (setBit 0 (digit h1 s)) (digit h2 s)
          = 2 ^ digit h1 s + 2 ^ digit h2 s := by
        rw [hs1, setBit_unset]
        rw [hasB_pow]
        simp
        omega
      have hne : hasB (2 ^ digit h1 s) (digit h2 s) = false := by
        rw [hasB_pow]
        simp
        omega
      have hbm : 2 ^ digit h1 s + 2 ^ digit h2 s < 2 ^ 32 :=
        setBit_lt_pow (digit h2 s) (2 ^ digit h1 s) 32
          (Nat.pow_lt_pow_right (by norm_num) hd1) hd2 hne
      have hpc : popcount (2 ^ digit h1 s + 2 ^ digit h2 s) = 2 := by
        unfold popcount
        rw [indexBelow_add_pow (digit h2 s) _ 32 hd2 hne,
          indexBelow_pow_gt (digit h1 s) 32 hd1]
      by_cases hlt : digit h1 s < digit h2 s
      · rw [if_pos hlt]
        refine Wf.bitmapIndexed _ _ _ ?_ ?_ ?_ ?_
        · rw [hs2]; exact hbm
        · rw [hs2]; simp [hpc]
        · intro d c hc
          rw [hs2, childAt_pair _ _ _ _ hlt] at hc
          by_cases h2d : d = digit h2 s
          · rw [if_pos h2d] at hc; cases hc; exact Wf.leaf _ _ _ _
          · rw [if_neg h2d] at hc
            by_cases h1d : d = digit h1 s
            · rw [if_pos h1d] at hc; cases hc; exact Wf.leaf _ _ _ _
            · rw [if_neg h1d] at hc; cases hc
        · intro d c hc e he
          rw [hs2, childAt_pair _ _ _ _ hlt] at hc
          by_cases h2d : d = digit h2 s
          · rw [if_pos h2d] at hc
            cases hc
            rw [hentries_leaf] at he
            simp at he
            rw [he, h2d]
          · rw [if_neg h2d] at hc
            by_cases h1d : d = digit h1 s
            · rw [if_pos h1d] at hc
              cases hc
              rw [hentries_leaf] at he
              simp at he
              rw [he, h1d]
            · rw [if_neg h1d] at hc; cases hc
      · have hgt : digit h2 s < digit h1 s := by omega
        rw [if_neg hlt]
        have hcomm : 2 ^ digit h1 s + 2 ^ digit h2 s
            = 2 ^ digit h2 s + 2 ^ digit h1 s := by omega
        refine Wf.bitmapIndexed _ _ _ ?_ ?_ ?_ ?_
        · rw [hs2]; exact hbm
        · rw [hs2]; simp [hpc]
        · intro d c hc
          rw [hs2, hcomm, childAt_pair _ _ _ _ hgt] at hc
          by_cases h1d : d = digit h1 s
          · rw [if_pos h1d] at hc; cases hc; exact Wf.leaf _ _ _ _
          · rw [if_neg h1d] at hc
            by_cases h2d : d = digit h2 s
            · rw [if_pos h2d] at hc; cases hc; exact Wf.leaf _ _ _ _
            · rw [if_neg h2d] at hc; cases hc
        · intro d c hc e he
          rw [hs2, hcomm, childAt_pair _ _ _ _ hgt] at hc
          by_cases h1d : d = digit h1 s
          · rw [if_pos h1d] at hc
            cases hc
            rw [hentries_leaf] at he
            simp at he
            rw [he, h1d]
          · rw [if_neg h1d] at hc
            by_cases h2d : d = digit h2 s
            · rw [if_pos h2d] at hc
              cases hc
              rw [hentries_leaf] at he
              simp at he
              rw [he, h2d]
            · rw [if_neg h2d] at hc; cases hc

theorem get_split {K V : Type} (h1 : Int) (k1 : K) (v1 : V) (h2 : Int) (k2 : K)
    (v2 : V) : ∀ (fuel s : Nat),
    getNode (splitLeaf h1 k1 v1 h2 k2 v2 fuel s) h2 s = some v2 := by
  intro fuel
  induction fuel with
  | zero => intro s; rw [splitLeaf, getNode_leaf]; simp
  | succ f ih =>
    intro s
    rw [splitLeaf]
    have hs1 : setBit 0 (digit h1 s) = 2 ^ digit h1 s := by
      rw [setBit_unset]
      · simp
      · rw [hasB_false_iff]; simp
    by_cases hd : digit h1 s = digit h2 s
    · rw [if_pos hd, getNode_bi, hs1, childAt_single, if_pos hd.symm]
      exact ih (s + 5)
    · rw [if_neg hd]
      have hs2 : setBit (setBit 0 (digit h1 s)) (digit h2 s)
          = 2 ^ digit h1 s + 2 ^ digit h2 s := by
        rw [hs1, setBit_unset]
        rw [hasB_pow]
        simp
        omega
      by_cases hlt : digit h1 s < digit h2 s
      · rw [if_pos hlt, getNode_bi, hs2, childAt_pair _ _ _ _ hlt, if_pos rfl]
        show getNode (HAMTNode.leaf h2 k2 v2) h2 (s + 5) = some v2
        rw [getNode_leaf]
        simp
      · have hgt : digit h2 s < digit h1 s := by omega
        have hcomm : 2 ^ digit h1 s + 2 ^ digit h2 s
            = 2 ^ digit h2 s + 2 ^ digit h1 s := by omega
        rw [if_neg hlt, getNode_bi, hs2, hcomm, childAt_pair _ _ _ _ hgt,
          if_neg (fun hh => hd hh.symm), if_pos rfl]
        show getNode (HAMTNode.leaf h2 k2 v2) h2 (s + 5) = some v2
        rw [getNode_leaf]
        simp

theorem childAt_isSome_of_hasB {K V : Type} (bm : Nat) (cs : List (HAMTNode K V))
    (d : Nat) (hb : hasB bm d = true) (hlen : cs.length = popcount bm)
    (hd32 : d < 32) : ∃ c, childAt bm cs d = some c := by
  have hidx : indexBelow bm d < cs.length := by
    rw [hlen]
    exact indexBelow_lt_of_hasB bm d 32 hb hd32
  unfold childAt
  rw [hb]
  simp only [if_true]
  cases hg : cs.get? (indexBelow bm d) with
  | none =>
    rw [List.get?_eq_none] at hg
    omega
  | some c => exact ⟨c, rfl⟩

/-! ### add: lookup, well-formedness, entries -/

/-- After `add`, looking up the inserted hash yields the inserted value. -/
theorem get_add_same {K V : Type} {n : HAMTNode K V} {s : Nat} (hwf : Wf n s) :
    ∀ (h : Int) (k : K) (v : V), getNode (addNode n h s k v) h s = some v := by
  induction hwf with
  | leaf h0 k0 v0 s =>
    intro h k v
    rw [addNode_leaf]
    by_cases he : h = h0
    · rw [if_pos he, getNode_leaf]
      simp
    · rw [if_neg he]
      exact get_split h0 k0 v0 h k v 8 s
  | bitmapIndexed bm cs s hbm hlen hwf hdig ihwf =>
    intro h k v
    rw [addNode_bi]
    by_cases hb : hasB bm (digit h s) = true
    · rw [if_pos hb]
      obtain ⟨c, hc⟩ := childAt_isSome_of_hasB bm cs (digit h s) hb hlen
        (digit_lt_32 h s)
      rw [hc]
      rw [getNode_bi]
      rw [childAt_set (digit h s) bm cs 32 _ hlen hb (digit_lt_32 h s), if_pos rfl]
      exact ihwf (digit h s) c hc h k v
    · have hb2 : hasB bm (digit h s) = false := by simpa using hb
      rw [if_neg hb, getNode_bi, setBit_unset bm (digit h s) hb2]
      rw [childAt_insert (digit h s) bm cs 32 _ hbm hlen hb2, if_pos rfl]
      show getNode (HAMTNode.leaf h k v) h (s + 5) = some v
      rw [getNode_leaf]
      simp

theorem childAt_mem {K V : Type} (bm : Nat) (cs : List (HAMTNode K V)) (d : Nat)
    (c : HAMTNode K V) (hc : childAt bm cs d = some c) : c ∈ cs := by
  unfold childAt at hc
  by_cases hb : hasB bm d = true
  · rw [hb] at hc
    simp only [if_true] at hc
    exact List.get?_mem hc
  · have : hasB bm d = false := by simpa using hb
    rw [this] at hc
    simp at hc

theorem mem_hentries_add {K V : Type} {n : HAMTNode K V} {s : Nat} (hwf : Wf n s) :
    ∀ (h : Int) (k : K) (v : V) (e : Int × K × V),
      e ∈ hentries (addNode n h s k v) → e ∈ hentries n ∨ e = (h, k, v) := by
  induction hwf with
  | leaf h0 k0 v0 s =>
    intro h k v e he
    rw [addNode_leaf] at he
    by_cases heq : h = h0
    · rw [if_pos heq, hentries_leaf] at he
      simp at he
      exact Or.inr he
    · rw [if_neg heq] at he
      rcases mem_hentries_split h0 k0 v0 h k v 8 s e he with h1 | h1
      · exact Or.inl (by rw [hentries_leaf]; simp [h1])
      · exact Or.inr h1
  | bitmapIndexed bm cs s hbm hlen hwf hdig ihwf =>
    intro h k v e he
    rw [addNode_bi] at he
    by_cases hb : hasB bm (digit h s) = true
    · rw [if_pos hb] at he
      obtain ⟨c, hc⟩ := childAt_isSome_of_hasB bm cs (digit h s) hb hlen
        (digit_lt_32 h s)
      rw [hc] at he
      rw [hentries_bi] at he
      obtain ⟨c2, hc2m, hec2⟩ := List.mem_flatMap.mp he
      rcases List.mem_or_eq_of_mem_set hc2m with hcs | rfl
      · exact Or.inl (by rw [hentries_bi]; exact List.mem_flatMap.mpr ⟨c2, hcs, hec2⟩)
      · rcases ihwf (digit h s) c hc h k v e hec2 with h1 | h1
        · refine Or.inl ?_
          rw [hentries_bi]
          exact List.mem_flatMap.mpr ⟨c, childAt_mem bm cs (digit h s) c hc, h1⟩
        · exact Or.inr h1
    · have hb2 : hasB bm (digit h s) = false := by simpa using hb
      rw [if_neg hb] at he
      rw [hentries_bi] at he
      obtain ⟨c2, hc2m, hec2⟩ := List.mem_flatMap.mp he
      rcases mem_insertAtL cs (indexBelow bm (digit h s)) (.leaf h k v) c2 hc2m
        with hcs | rfl
      · exact Or.inl (by rw [hentries_bi]; exact List.mem_flatMap.mpr ⟨c2, hcs, hec2⟩)
      · rw [hentries_leaf] at hec2
        simp at hec2
        exact Or.inr hec2

theorem add_wf {K V : Type} {n : HAMTNode K V} {s : Nat} (hwf : Wf n s) :
    ∀ (h : Int) (k : K) (v : V), Wf (addNode n h s k v) s := by
  induction hwf with
  | leaf h0 k0 v0 s =>
    intro h k v
    rw [addNode_leaf]
    by_cases heq : h = h0
    · rw [if_pos heq]; exact Wf.leaf h k v s
    · rw [if_neg heq]; exact wf_split h0 k0 v0 h k v 8 s
  | bitmapIndexed bm cs s hbm hlen hwf hdig ihwf =>
    intro h k v
    rw [addNode_bi]
    by_cases hb : hasB bm (digit h s) = true
    · rw [if_pos hb]
      obtain ⟨c, hc⟩ := childAt_isSome_of_hasB bm cs (digit h s) hb hlen
        (digit_lt_32 h s)
      rw [hc]
      refine Wf.bitmapIndexed _ _ _ hbm ?_ ?_ ?_
      · rw [List.length_set]; exact hlen
      · intro d c2 hc2
        rw [childAt_set (digit h s) bm cs 32 _ hlen hb (digit_lt_32 h s)] at hc2
        by_cases hdd : d = digit h s
        · rw [if_pos hdd] at hc2
          cases hc2
          exact ihwf (digit h s) c hc h k v
        · rw [if_neg hdd] at hc2
          exact hwf d c2 hc2
      · intro d c2 hc2 e he
        rw [childAt_set (digit h s) bm cs 32 _ hlen hb (digit_lt_32 h s)] at hc2
        by_cases hdd : d = digit h s
        · rw [if_pos hdd] at hc2
          cases hc2
          rcases mem_hentries_add (hwf (digit h s) c hc) h k v e he with h1 | h1
          · rw [hdd]
            exact hdig (digit h s) c hc e h1
          · rw [h1, hdd]
        · rw [if_neg hdd] at hc2
          exact hdig d c2 hc2 e he
    · have hb2 : hasB bm (digit h s) = false := by simpa using hb
      rw [if_neg hb, setBit_unset bm (digit h s) hb2]
      have hd32 : digit h s < 32 := digit_lt_32 h s
      have hidxle : indexBelow bm (digit h s) ≤ cs.length := by
        rw [hlen]
        exact indexBelow_mono bm (digit h s) 32 (by omega)
      refine Wf.bitmapIndexed _ _ _ ?_ ?_ ?_ ?_
      · exact setBit_lt_pow (digit h s) bm 32 hbm hd32 hb2
      · rw [length_insertAtL cs _ _ hidxle]
        unfold popcount
        rw [indexBelow_add_pow (digit h s) bm 32 hd32 hb2]
        rw [hlen]
        rfl
      · intro d c2 hc2
        rw [childAt_insert (digit h s) bm cs 32 _ hbm hlen hb2] at hc2
        by_cases hdd : d = digit h s
        · rw [if_pos hdd] at hc2
          cases hc2
          exact Wf.leaf h k v (s + 5)
        · rw [if_neg hdd] at hc2
          exact hwf d c2 hc2
      · intro d c2 hc2 e he
        rw [childAt_insert (digit h s) bm cs 32 _ hbm hlen hb2] at hc2
        by_cases hdd : d = digit h s
        · rw [if_pos hdd] at hc2
          cases hc2
          rw [hentries_leaf] at he
          simp at he
          rw [he, hdd]
        · rw [if_neg hdd] at hc2
          exact hdig d c2 hc2 e he

/-- C1: on an exact hash collision, the second `add` overwrites the first
    under `get`: for any well-formed map and keys with equal hashes but
    different identity, both lookups after the two adds return the second
    value (last-write-wins, lookup decided by the full 32-bit hash alone). -/
theorem C1_collision_last_write_wins {K V : Type} (hasher : K → Int)
    (m : IMap K V) (k1 k2 : K) (v1 v2 : V) (hwf : WfRoot m)
    (hcoll : hasher k1 = hasher k2) (hne : k1 ≠ k2) :
    mapGet hasher (mapAdd hasher (mapAdd hasher m k1 v1) k2 v2) k1 = some v2 ∧
    mapGet hasher (mapAdd hasher (mapAdd hasher m k1 v1) k2 v2) k2 = some v2 := by
  set m1 := mapAdd hasher m k1 v1 with hm1
  obtain ⟨r1, hr1, hw1⟩ : ∃ r1, m1.root = some r1 ∧ Wf r1 0 := by
    rw [hm1]
    cases hroot : m.root with
    | none =>
      refine ⟨.leaf (hasher k1) k1 v1, ?_, Wf.leaf _ _ _ _⟩
      unfold mapAdd
      rw [hroot]
    | some r =>
      refine ⟨addNode r (hasher k1) 0 k1 v1, ?_, add_wf (hwf r hroot) _ _ _⟩
      unfold mapAdd
      rw [hroot]
  have houter : (mapAdd hasher m1 k2 v2).root
      = some (addNode r1 (hasher k2) 0 k2 v2) := by
    unfold mapAdd
    rw [hr1]
  constructor
  · unfold mapGet
    rw [houter, Option.some_bind, hcoll]
    exact get_add_same hw1 (hasher k2) k2 v2
  · unfold mapGet
    rw [houter, Option.some_bind]
    exact get_add_same hw1 (hasher k2) k2 v2

/-- C1 witness: the boolean `true` and the number `1` hash identically
    under the default hasher but are different keys; adding both to the
    empty map makes both lookups return the second value. -/
theorem C1_collision_last_write_wins_witness :
    mapGet jsHash (mapAdd jsHash (mapAdd jsHash (⟨none⟩ : IMap JSValue Int)
        (.boolean true) 7) (.num 1) 9) (.boolean true) = some 9 ∧
    mapGet jsHash (mapAdd jsHash (mapAdd jsHash (⟨none⟩ : IMap JSValue Int)
        (.boolean true) 7) (.num 1) 9) (.num 1) = some 9 :=
  C1_collision_last_write_wins jsHash ⟨none⟩ (.boolean true) (.num 1) 7 9
    (by intro r hr; cases hr)
    (by simp [jsHash])
    (by intro h; cases h)

/-! ### Digit divergence arithmetic -/

theorem mod_pow_step (x y t : Nat) (hmod : x % 2 ^ t = y % 2 ^ t)
    (hdig : x / 2 ^ t % 32 = y / 2 ^ t % 32) :
    x % 2 ^ (t + 5) = y % 2 ^ (t + 5) := by
  have hsplit : ∀ z : Nat, z % 2 ^ (t + 5) = z % 2 ^ t + 2 ^ t * (z / 2 ^ t % 32) := by
    intro z
    have : (2 : Nat) ^ (t + 5) = 2 ^ t * 32 := by
      rw [Nat.pow_add]
    rw [this, Nat.mod_mul]
  rw [hsplit x, hsplit y, hmod, hdig]

theorem digit_diverge (a b s : Nat) (ha : a < 2 ^ 32) (hb : b < 2 ^ 32)
    (hne : a ≠ b) (hagree : a % 2 ^ s = b % 2 ^ s) :
    ∃ j < 8, a / 2 ^ (s + 5 * j) % 32 ≠ b / 2 ^ (s + 5 * j) % 32 := by
  by_contra hall
  push_neg at hall
  have key : ∀ j, j ≤ 8 → a % 2 ^ (s + 5 * j) = b % 2 ^ (s + 5 * j) := by
    intro j
    induction j with
    | zero => intro _; simpa using hagree
    | succ i ihj =>
      intro hle
      have hstep := mod_pow_step a b (s + 5 * i) (ihj (by omega)) (hall i (by omega))
      have harith : s + 5 * i + 5 = s + 5 * (i + 1) := by omega
      rw [harith] at hstep
      exact hstep
  have hfin := key 8 (Nat.le_refl 8)
  have hbig : (2 : Nat) ^ 32 ≤ 2 ^ (s + 5 * 8) :=
    Nat.pow_le_pow_right (by norm_num) (by omega)
  rw [Nat.mod_eq_of_lt (by omega), Nat.mod_eq_of_lt (by omega)] at hfin
  exact hne hfin

theorem u32_eq_toNat (h : Int) (h0 : 0 ≤ h) (h1 : h < U32) : (u32 h : Int) = h := by
  unfold u32 toUint32
  rw [Int.emod_eq_of_lt h0 h1]
  exact Int.toNat_of_nonneg h0

theorem u32_lt (h : Int) : u32 h < 2 ^ 32 := by
  unfold u32
  have h1 : toUint32 h < U32 := toUint32_lt h
  have h2 : (0 : Int) ≤ toUint32 h := toUint32_nonneg h
  have : ((2 : Nat) ^ 32 : Int) = U32 := by norm_num [U32]
  omega

theorem u32_inj (h1 h2 : Int) (ha : 0 ≤ h1) (hb : h1 < U32) (hc : 0 ≤ h2)
    (hd : h2 < U32) (hne : h1 ≠ h2) : u32 h1 ≠ u32 h2 := by
  intro heq
  apply hne
  have e1 := u32_eq_toNat h1 ha hb
  have e2 := u32_eq_toNat h2 hc hd
  rw [← e1, ← e2, heq]

/-! ### The entries of `add`: last-write-wins permutation -/

theorem hentries_add_perm {K V : Type} {n : HAMTNode K V} {s : Nat} (hwf : Wf n s) :
    ∀ (h : Int) (k : K) (v : V), 0 ≤ h → h < U32 →
      (∀ e ∈ hentries n, 0 ≤ e.1 ∧ e.1 < U32 ∧ u32 e.1 % 2 ^ s = u32 h % 2 ^ s) →
      List.Perm (hentries (addNode n h s k v))
        ((h, k, v) :: (hentries n).filter (fun e => e.1 != h)) := by
  induction hwf with
  | leaf h0 k0 v0 s =>
    intro h k v hh0 hh1 hent
    rw [addNode_leaf, hentries_leaf]
    by_cases heq : h = h0
    · rw [if_pos heq, hentries_leaf]
      have hfe : List.filter (fun e => e.1 != h) [((h0 : Int), k0, v0)] = [] := by
        simp [heq]
      rw [hfe]
    · rw [if_neg heq]
      obtain ⟨he0, he1, he2⟩ := hent (h0, k0, v0) (by rw [hentries_leaf]; simp)
      have hdiv : ∃ j < 8, digit h0 (s + 5 * j) ≠ digit h (s + 5 * j) :=
        digit_diverge (u32 h0) (u32 h) s (u32_lt h0) (u32_lt h)
          (u32_inj h0 h he0 he1 hh0 hh1 (fun hh => heq hh.symm)) he2
      have hperm := hentries_split_perm h0 k0 v0 h k v 8 s hdiv
      have hfe : List.filter (fun e => e.1 != h) [((h0 : Int), k0, v0)] =
          [(h0, k0, v0)] := by
        have : (h0 != h) = true := bne_iff_ne.mpr (fun hh => heq hh.symm)
        simp [this]
      rw [hfe]
      exact hperm.trans (List.Perm.swap (h, k, v) (h0, k0, v0) [])
  | bitmapIndexed bm cs s hbm hlen hwf hdig ihwf =>
    intro h k v hh0 hh1 hent
    have hd32 : digit h s < 32 := digit_lt_32 h s
    rw [addNode_bi]
    by_cases hb : hasB bm (digit h s) = true
    · rw [if_pos hb]
      obtain ⟨c, hc⟩ := childAt_isSome_of_hasB bm cs (digit h s) hb hlen hd32
      rw [hc]
      show List.Perm
        (hentries (HAMTNode.bitmapIndexed bm
          (cs.set (indexBelow bm (digit h s)) (addNode c h (s + 5) k v))))
        ((h, k, v) ::
          (hentries (HAMTNode.bitmapIndexed bm cs)).filter (fun e => e.1 != h))
      have hlen2 : (cs.set (indexBelow bm (digit h s))
          (addNode c h (s + 5) k v)).length = popcount bm := by
        rw [List.length_set]; exact hlen
      rw [hentries_decompose bm _ hbm hlen2, hentries_decompose bm cs hbm hlen]
      unfold entriesAtDigits
      rw [filter_flatMap]
      refine flatMap_perm_single (List.range 32) (List.nodup_range 32) _ _
        (digit h s) (h, k, v) (List.mem_range.mpr hd32) ?_ ?_
      · intro a _ hane
        rw [childAt_set (digit h s) bm cs 32 _ hlen hb hd32 a, if_neg hane]
        cases hca : childAt bm cs a with
        | none => rfl
        | some ca =>
          show hentries ca = List.filter (fun e => e.1 != h) (hentries ca)
          have hself : ∀ e ∈ hentries ca, (e.1 != h) = true := by
            intro e he
            have hda : digit e.1 s = a := hdig a ca hca e he
            rw [bne_iff_ne]
            intro hcontr
            rw [hcontr] at hda
            exact hane hda.symm
          exact (List.filter_eq_self.mpr hself).symm
      · rw [childAt_set (digit h s) bm cs 32 _ hlen hb hd32, if_pos rfl, hc]
        show List.Perm (hentries (addNode c h (s + 5) k v))
          ((h, k, v) :: List.filter (fun e => e.1 != h) (hentries c))
        have hsub : ∀ e ∈ hentries c, 0 ≤ e.1 ∧ e.1 < U32 ∧
            u32 e.1 % 2 ^ (s + 5) = u32 h % 2 ^ (s + 5) := by
          intro e he
          have hmem : e ∈ hentries (HAMTNode.bitmapIndexed bm cs) :=
            (mem_hentries_bi bm cs e hbm hlen).mpr ⟨digit h s, c, hc, he⟩
          obtain ⟨q0, q1, q2⟩ := hent e hmem
          refine ⟨q0, q1, ?_⟩
          have hde : digit e.1 s = digit h s := hdig (digit h s) c hc e he
          exact mod_pow_step (u32 e.1) (u32 h) s q2 hde
        exact ihwf (digit h s) c hc h k v hh0 hh1 hsub
    · have hb2 : hasB bm (digit h s) = false := by simpa using hb
      rw [if_neg hb, setBit_unset bm (digit h s) hb2]
      have hidxle : indexBelow bm (digit h s) ≤ cs.length := by
        rw [hlen]
        exact indexBelow_mono bm (digit h s) 32 (by omega)
      have hbm2 : bm + 2 ^ digit h s < 2 ^ 32 :=
        setBit_lt_pow (digit h s) bm 32 hbm hd32 hb2
      have hlen2 : (insertAtL cs (indexBelow bm (digit h s))
          (HAMTNode.leaf h k v)).length = popcount (bm + 2 ^ digit h s) := by
        rw [length_insertAtL cs _ _ hidxle]
        unfold popcount
        rw [indexBelow_add_pow (digit h s) bm 32 hd32 hb2, hlen]
        rfl
      rw [hentries_decompose _ _ hbm2 hlen2, hentries_decompose bm cs hbm hlen]
      unfold entriesAtDigits
      rw [filter_flatMap]
      refine flatMap_perm_single (List.range 32) (List.nodup_range 32) _ _
        (digit h s) (h, k, v) (List.mem_range.mpr hd32) ?_ ?_
      · intro a _ hane
        rw [childAt_insert (digit h s) bm cs 32 _ hbm hlen hb2 a, if_neg hane]
        cases hca : childAt bm cs a with
        | none => rfl
        | some ca =>
          show hentries ca = List.filter (fun e => e.1 != h) (hentries ca)
          have hself : ∀ e ∈ hentries ca, (e.1 != h) = true := by
            intro e he
            have hda : digit e.1 s = a := hdig a ca hca e he
            rw [bne_iff_ne]
            intro hcontr
            rw [hcontr] at hda
            exact hane hda.symm
          exact (List.filter_eq_self.mpr hself).symm
      · rw [childAt_insert (digit h s) bm cs 32 _ hbm hlen hb2, if_pos rfl]
        have hnone : childAt bm cs (digit h s) = none := by
          unfold childAt
          rw [hb2]
          simp
        rw [hnone]
        show List.Perm (hentries (HAMTNode.leaf h k v)) ((h, k, v) :: [])
        rw [hentries_leaf]

/-! ### The empty seed node and the fold that builds `fromArray` -/

theorem wf_emptyBI {K V : Type} : Wf (emptyBI : HAMTNode K V) 0 := by
  refine Wf.bitmapIndexed 0 [] 0 (by norm_num) ?_ ?_ ?_
  · show (0 : Nat) = popcount 0
    unfold popcount
    rw [indexBelow_zero_left]
  · intro d c hc
    exfalso
    unfold childAt at hc
    rw [hasB_of_lt_pow 0 d (by positivity)] at hc
    simp at hc
  · intro d c hc
    exfalso
    unfold childAt at hc
    rw [hasB_of_lt_pow 0 d (by positivity)] at hc
    simp at hc

theorem hentries_emptyBI {K V : Type} : hentries (emptyBI : HAMTNode K V) = [] := by
  show hentries (.bitmapIndexed 0 [] : HAMTNode K V) = []
  rw [hentries_bi]
  rfl

theorem fold_add_perm_gen {K V : Type} (hasher : K → Int)
    (hr : ∀ k : K, 0 ≤ hasher k ∧ hasher k < U32) :
    ∀ (items : List (K × V)) (n : HAMTNode K V) (L : List (Int × K × V)),
      Wf n 0 → (∀ e ∈ hentries n, 0 ≤ e.1 ∧ e.1 < U32) →
      List.Perm (hentries n) L →
      Wf (items.foldl (fun acc e => addNode acc (hasher e.1) 0 e.1 e.2) n) 0 ∧
      (∀ e ∈ hentries
          (items.foldl (fun acc e => addNode acc (hasher e.1) 0 e.1 e.2) n),
        0 ≤ e.1 ∧ e.1 < U32) ∧
      List.Perm
        (hentries (items.foldl (fun acc e => addNode acc (hasher e.1) 0 e.1 e.2) n))
        (tagFold hasher items L) := by
  intro items
  induction items with
  | nil =>
    intro n L hwf hrange hperm
    exact ⟨hwf, hrange, hperm⟩
  | cons e t ih =>
    intro n L hwf hrange hperm
    have hadd : Wf (addNode n (hasher e.1) 0 e.1 e.2) 0 :=
      add_wf hwf (hasher e.1) e.1 e.2
    have hrange2 : ∀ e2 ∈ hentries (addNode n (hasher e.1) 0 e.1 e.2),
        0 ≤ e2.1 ∧ e2.1 < U32 := by
      intro e2 he2
      rcases mem_hentries_add hwf (hasher e.1) e.1 e.2 e2 he2 with h1 | h1
      · exact hrange e2 h1
      · rw [h1]; exact hr e.1
    have hstep := hentries_add_perm hwf (hasher e.1) e.1 e.2 (hr e.1).1 (hr e.1).2
      (fun e2 he2 => ⟨(hrange e2 he2).1, (hrange e2 he2).2, by omega⟩)
    have hperm2 : List.Perm (hentries (addNode n (hasher e.1) 0 e.1 e.2))
        (L.filter (fun e2 => e2.1 != hasher e.1) ++ [(hasher e.1, e.1, e.2)]) := by
      refine hstep.trans ?_
      have hfl : List.Perm ((hentries n).filter (fun e2 => e2.1 != hasher e.1))
          (L.filter (fun e2 => e2.1 != hasher e.1)) := hperm.filter _
      exact (hfl.cons _).trans
        (List.perm_append_singleton _ _).symm
    exact ih (addNode n (hasher e.1) 0 e.1 e.2)
      (L.filter (fun e2 => e2.1 != hasher e.1) ++ [(hasher e.1, e.1, e.2)])
      hadd hrange2 hperm2

theorem map_filter_tag {K V : Type} (hasher : K → Int) (hv : Int) :
    ∀ (l : List (Int × K × V)), (∀ e ∈ l, e.1 = hasher e.2.1) →
      (l.filter (fun e2 => e2.1 != hv)).map (fun e => (e.2.1, e.2.2)) =
        (l.map (fun e => (e.2.1, e.2.2))).filter (fun x => hasher x.1 != hv) := by
  intro l
  induction l with
  | nil => intro _; rfl
  | cons a t iht =>
    intro hl
    have ha : a.1 = hasher a.2.1 := hl a (by simp)
    have ht : ∀ e ∈ t, e.1 = hasher e.2.1 := fun e he => hl e (by simp [he])
    by_cases hb : (a.1 != hv) = true
    · have hb2 : (hasher a.2.1 != hv) = true := by rw [← ha]; exact hb
      simp [List.filter_cons, hb, hb2, iht ht]
    · have hb2 : ¬(hasher a.2.1 != hv) = true := by rw [← ha]; exact hb
      simp [List.filter_cons, hb, hb2, iht ht]

theorem tagFold_map {K V : Type} (hasher : K → Int) :
    ∀ (items : List (K × V)) (init : List (Int × K × V)),
      (∀ e ∈ init, e.1 = hasher e.2.1) →
      (tagFold hasher items init).map (fun e => (e.2.1, e.2.2)) =
        items.foldl (fun acc e =>
            acc.filter (fun e2 => hasher e2.1 != hasher e.1) ++ [e])
          (init.map (fun e => (e.2.1, e.2.2))) := by
  intro items
  induction items with
  | nil => intro init _; rfl
  | cons e t iht =>
    intro init hinit
    have hinit2 : ∀ e2 ∈ init.filter (fun e2 => e2.1 != hasher e.1) ++
        [(hasher e.1, e.1, e.2)], e2.1 = hasher e2.2.1 := by
      intro e2 he2
      rcases List.mem_append.mp he2 with h1 | h1
      · exact hinit e2 (List.mem_of_mem_filter h1)
      · simp at h1; rw [h1]
    have hstep := iht (init.filter (fun e2 => e2.1 != hasher e.1) ++
      [(hasher e.1, e.1, e.2)]) hinit2
    refine hstep.trans ?_
    rw [List.foldl_cons]
    congr 1
    rw [List.map_append, map_filter_tag hasher (hasher e.1) init hinit]
    rfl

/-- C5: for every hasher meeting the u32 contract and every finite entry
    array, `fromArray(entries).toArray()` is a permutation of the input
    entries after the spec's last-write-wins collapse (`lastWins`,
    collapsing earlier entries whose key hashes equal a later one). -/
theorem C5_fromArray_toArray_roundtrip {K V : Type} (hasher : K → Int)
    (hr : ∀ k : K, 0 ≤ hasher k ∧ hasher k < U32) (items : List (K × V)) :
    List.Perm (mapToArray (mapFromArray hasher items)) (lastWins hasher items) := by
  obtain ⟨hwf, hrange, hperm⟩ := fold_add_perm_gen hasher hr items emptyBI []
    wf_emptyBI (by rw [hentries_emptyBI]; simp) (by rw [hentries_emptyBI])
  show List.Perm ((hentries (items.foldl
      (fun acc e => addNode acc (hasher e.1) 0 e.1 e.2) emptyBI)).map
      (fun e => (e.2.1, e.2.2))) (lastWins hasher items)
  refine (hperm.map _).trans ?_
  rw [tagFold_map hasher items [] (by simp)]
  exact List.Perm.refl _

theorem C5_fromArray_toArray_roundtrip_witness :
    (∀ k : Bool, 0 ≤ (fun _ : Bool => (0 : Int)) k ∧
      (fun _ : Bool => (0 : Int)) k < U32) ∧
    List.Perm (mapToArray (mapFromArray (fun _ : Bool => (0 : Int)) [(true, false)]))
      (lastWins (fun _ : Bool => (0 : Int)) [(true, false)]) :=
  ⟨by decide,
   C5_fromArray_toArray_roundtrip (fun _ : Bool => (0 : Int)) (by decide)
     [(true, false)]⟩

/-! ### Lookup answers exactly the stored entries -/

theorem get_entry {K V : Type} {n : HAMTNode K V} {s : Nat} (hwf : Wf n s) :
    ∀ e ∈ hentries n, getNode n e.1 s = some e.2.2 := by
  induction hwf with
  | leaf h0 k0 v0 s =>
    intro e he
    rw [hentries_leaf] at he
    rw [List.mem_singleton] at he
    rw [he, getNode_leaf]
    rw [if_pos rfl]
  | bitmapIndexed bm cs s hbm hlen hwf hdig ihwf =>
    intro e he
    obtain ⟨d, c, hc, hec⟩ := (mem_hentries_bi bm cs e hbm hlen).mp he
    have hdd : digit e.1 s = d := hdig d c hc e hec
    rw [getNode_bi, hdd, hc]
    exact ihwf d c hc e hec

theorem get_some_mem {K V : Type} {n : HAMTNode K V} {s : Nat} (hwf : Wf n s) :
    ∀ (h : Int) (v : V), getNode n h s = some v →
      ∃ e ∈ hentries n, e.1 = h ∧ e.2.2 = v := by
  induction hwf with
  | leaf h0 k0 v0 s =>
    intro h v hg
    rw [getNode_leaf] at hg
    by_cases heq : h = h0
    · rw [if_pos heq] at hg
      refine ⟨(h0, k0, v0), ?_, heq.symm, Option.some_inj.mp hg⟩
      rw [hentries_leaf]
      simp
    · rw [if_neg heq] at hg
      exact Option.noConfusion hg
  | bitmapIndexed bm cs s hbm hlen hwf hdig ihwf =>
    intro h v hg
    rw [getNode_bi] at hg
    cases hc : childAt bm cs (digit h s) with
    | none =>
      rw [hc] at hg
      exact Option.noConfusion hg
    | some c =>
      rw [hc] at hg
      have hg2 : getNode c h (s + 5) = some v := hg
      obtain ⟨e, he, he1, he2⟩ := ihwf (digit h s) c hc h v hg2
      exact ⟨e, (mem_hentries_bi bm cs e hbm hlen).mpr ⟨digit h s, c, hc, he⟩,
        he1, he2⟩

theorem contains_eq_isSome {K V : Type} {n : HAMTNode K V} {s : Nat}
    (hwf : Wf n s) : ∀ h, containsNode n h s = (getNode n h s).isSome := by
  induction hwf with
  | leaf h0 k0 v0 s =>
    intro h
    rw [containsNode_leaf, getNode_leaf]
    by_cases heq : h = h0
    · rw [if_pos heq]
      simp [heq]
    · rw [if_neg heq]
      simp [heq]
  | bitmapIndexed bm cs s hbm hlen hwf hdig ihwf =>
    intro h
    rw [containsNode_bi, getNode_bi]
    cases hc : childAt bm cs (digit h s) with
    | none => rfl
    | some c => exact ihwf (digit h s) c hc h

theorem remove_keeps {K V : Type} {n : HAMTNode K V} {s : Nat} (hwf : Wf n s) :
    ∀ h, (∀ e ∈ hentries n, e.1 ≠ h) → removeNode n h s = some n := by
  induction hwf with
  | leaf h0 k0 v0 s =>
    intro h hne
    rw [removeNode_leaf]
    have : (h0, k0, v0).1 ≠ h := hne (h0, k0, v0) (by rw [hentries_leaf]; simp)
    rw [if_neg (fun heq => this heq.symm)]
  | bitmapIndexed bm cs s hbm hlen hwf hdig ihwf =>
    intro h hne
    rw [removeNode_bi]
    by_cases hb : hasB bm (digit h s) = true
    · rw [if_pos hb]
      obtain ⟨c, hc⟩ := childAt_isSome_of_hasB bm cs (digit h s) hb hlen
        (digit_lt_32 h s)
      rw [hc]
      have hsub : ∀ e ∈ hentries c, e.1 ≠ h := by
        intro e he
        exact hne e ((mem_hentries_bi bm cs e hbm hlen).mpr
          ⟨digit h s, c, hc, he⟩)
      have hrec : removeNode c h (s + 5) = some c := ihwf (digit h s) c hc h hsub
      show (match removeNode c h (s + 5) with
        | some c2 =>
            some (HAMTNode.bitmapIndexed bm
              (cs.set (indexBelow bm (digit h s)) c2))
        | none =>
            if (removeAtL cs (indexBelow bm (digit h s))).isEmpty then none
            else
              some (HAMTNode.bitmapIndexed (clearBit bm (digit h s))
                (removeAtL cs (indexBelow bm (digit h s))))) =
        some (HAMTNode.bitmapIndexed bm cs)
      rw [hrec]
      have hget : cs.get? (indexBelow bm (digit h s)) = some c := by
        unfold childAt at hc
        rw [hb] at hc
        simpa using hc
      show some (HAMTNode.bitmapIndexed bm
        (cs.set (indexBelow bm (digit h s)) c)) =
        some (HAMTNode.bitmapIndexed bm cs)
      rw [set_get?_self cs _ c hget]
    · rw [if_neg hb]

theorem mapEquals_refl {K V : Type} (hasher : K → Int) (m : IMap K V)
    (f : V → V → Bool) (hwf : WfRoot m) (hcons : HashConsistent hasher m)
    (hf : ∀ v, f v v = true) : mapEquals hasher m m f = true := by
  unfold mapEquals
  rw [if_neg (by simp)]
  rw [List.all_eq_true]
  intro e he
  obtain ⟨ro⟩ := m
  cases ro with
  | none => simp [mapToArray] at he
  | some r =>
    have he2 : e ∈ (hentries r).map (fun t => (t.2.1, t.2.2)) := he
    obtain ⟨t, ht, hte⟩ := List.mem_map.mp he2
    have htag : t.1 = hasher t.2.1 := hcons r rfl t ht
    have hget : getNode r t.1 0 = some t.2.2 := get_entry (hwf r rfl) t ht
    have hek1 : e.1 = t.2.1 := by rw [← hte]
    have hek2 : e.2 = t.2.2 := by rw [← hte]
    have hc2 : mapContains hasher ⟨some r⟩ e.1 = true := by
      show containsNode r (hasher e.1) 0 = true
      rw [hek1, ← htag, contains_eq_isSome (hwf r rfl), hget]
      rfl
    have hg2 : mapGet hasher ⟨some r⟩ e.1 = some t.2.2 := by
      show getNode r (hasher e.1) 0 = some t.2.2
      rw [hek1, ← htag]
      exact hget
    rw [if_pos hc2, hg2, hek2]
    exact hf t.2.2

/-- C6: removing a key that is not contained in the map is a no-op: the
    returned map is the very same value, and in particular is `equals`-equal
    to the original under any reflexive value comparator. -/
theorem C6_remove_absent_noop {K V : Type} (hasher : K → Int) (m : IMap K V)
    (k : K) (f : V → V → Bool) (hwf : WfRoot m) (hcons : HashConsistent hasher m)
    (habs : mapContains hasher m k = false) (hf : ∀ v, f v v = true) :
    mapRemove hasher m k = m ∧ mapEquals hasher (mapRemove hasher m k) m f = true := by
  have hrm : mapRemove hasher m k = m := by
    obtain ⟨ro⟩ := m
    cases ro with
    | none => rfl
    | some r =>
      have hcont : containsNode r (hasher k) 0 = false := habs
      have hget : getNode r (hasher k) 0 = none := by
        have h2 := contains_eq_isSome (hwf r rfl) (hasher k)
        rw [hcont] at h2
        cases hgn : getNode r (hasher k) 0 with
        | none => rfl
        | some v => rw [hgn] at h2; simp at h2
      have hne : ∀ e ∈ hentries r, e.1 ≠ hasher k := by
        intro e he heq
        have hg := get_entry (hwf r rfl) e he
        rw [heq, hget] at hg
        exact Option.noConfusion hg
      have hkeep : removeNode r (hasher k) 0 = some r :=
        remove_keeps (hwf r rfl) (hasher k) hne
      show (⟨(some r).bind fun r2 => removeNode r2 (hasher k) 0⟩ : IMap K V) =
        ⟨some r⟩
      rw [Option.some_bind, hkeep]
  refine ⟨hrm, ?_⟩
  rw [hrm]
  exact mapEquals_refl hasher m f hwf hcons hf

theorem C6_remove_absent_noop_witness :
    mapContains (fun _ : Bool => (0 : Int)) (⟨none⟩ : IMap Bool Bool) true = false ∧
    (mapRemove (fun _ : Bool => (0 : Int)) (⟨none⟩ : IMap Bool Bool) true =
        (⟨none⟩ : IMap Bool Bool) ∧
      mapEquals (fun _ : Bool => (0 : Int))
        (mapRemove (fun _ : Bool => (0 : Int)) (⟨none⟩ : IMap Bool Bool) true)
        (⟨none⟩ : IMap Bool Bool) (fun _ _ => true) = true) :=
  ⟨rfl, C6_remove_absent_noop (fun _ : Bool => (0 : Int)) ⟨none⟩ true
    (fun _ _ => true) (fun r h => nomatch h) (fun r h => nomatch h) rfl
    (fun _ => rfl)⟩

/-- C7: `equals(other, f)` is true exactly when the sizes agree and every
    key with a value in `self` has a comparator-matching value in `other`;
    the right-hand side mentions no traversal order. -/
theorem C7_equals_iff {K V : Type} (hasher : K → Int) (m o : IMap K V)
    (f : V → V → Bool) (hwm : WfRoot m) (hwo : WfRoot o)
    (hcm : HashConsistent hasher m) :
    mapEquals hasher m o f = true ↔
      (mapSize m = mapSize o ∧
       ∀ (k : K) (v : V), mapGet hasher m k = some v →
         ∃ v2, mapGet hasher o k = some v2 ∧ f v v2 = true) := by
  obtain ⟨ro⟩ := m
  constructor
  · intro he
    unfold mapEquals at he
    by_cases hsz : mapSize (⟨ro⟩ : IMap K V) = mapSize o
    · rw [if_neg (by simp [hsz])] at he
      refine ⟨hsz, ?_⟩
      intro k v hget
      cases ro with
      | none => exact Option.noConfusion hget
      | some r =>
        have hg : getNode r (hasher k) 0 = some v := hget
        obtain ⟨t, ht, ht1, ht2⟩ := get_some_mem (hwm r rfl) (hasher k) v hg
        have hmem : (t.2.1, t.2.2) ∈ mapToArray (⟨some r⟩ : IMap K V) :=
          List.mem_map.mpr ⟨t, ht, rfl⟩
        have hpred := List.all_eq_true.mp he (t.2.1, t.2.2) hmem
        have hhash : hasher t.2.1 = hasher k := by
          rw [← hcm r rfl t ht]
          exact ht1
        by_cases hco : mapContains hasher o (t.2.1, t.2.2).1 = true
        · rw [if_pos hco] at hpred
          cases hgo : mapGet hasher o (t.2.1, t.2.2).1 with
          | none => rw [hgo] at hpred; simp at hpred
          | some v2 =>
            rw [hgo] at hpred
            have hfv : f t.2.2 v2 = true := hpred
            refine ⟨v2, ?_, ?_⟩
            · have : mapGet hasher o k = mapGet hasher o t.2.1 := by
                unfold mapGet
                rw [hhash]
              rw [this]
              exact hgo
            · rw [ht2] at hfv
              exact hfv
        · rw [if_neg hco] at hpred
          exact Bool.noConfusion hpred
    · rw [if_pos hsz] at he
      exact Bool.noConfusion he
  · rintro ⟨hsz, hall⟩
    unfold mapEquals
    rw [if_neg (by simp [hsz])]
    rw [List.all_eq_true]
    intro e he
    cases ro with
    | none => simp [mapToArray] at he
    | some r =>
      have he2 : e ∈ (hentries r).map (fun t => (t.2.1, t.2.2)) := he
      obtain ⟨t, ht, hte⟩ := List.mem_map.mp he2
      have hek1 : e.1 = t.2.1 := by rw [← hte]
      have hek2 : e.2 = t.2.2 := by rw [← hte]
      have htag : t.1 = hasher t.2.1 := hcm r rfl t ht
      have hgm : mapGet hasher (⟨some r⟩ : IMap K V) e.1 = some t.2.2 := by
        show getNode r (hasher e.1) 0 = some t.2.2
        rw [hek1, ← htag]
        exact get_entry (hwm r rfl) t ht
      obtain ⟨v2, hgo, hfv⟩ := hall e.1 t.2.2 hgm
      have hco : mapContains hasher o e.1 = true := by
        obtain ⟨oro⟩ := o
        cases oro with
        | none => exact Option.noConfusion hgo
        | some r2 =>
          show containsNode r2 (hasher e.1) 0 = true
          have hg2 : getNode r2 (hasher e.1) 0 = some v2 := hgo
          rw [contains_eq_isSome (hwo r2 rfl), hg2]
          rfl
      rw [if_pos hco, hgo, hek2]
      exact hfv

theorem C7_equals_iff_witness :
    (∀ r, (⟨none⟩ : IMap Bool Bool).root = some r → Wf r 0) ∧
    (mapEquals (fun _ : Bool => (0 : Int)) (⟨none⟩ : IMap Bool Bool)
        (⟨none⟩ : IMap Bool Bool) (fun _ _ => true) = true ↔
      (mapSize (⟨none⟩ : IMap Bool Bool) = mapSize (⟨none⟩ : IMap Bool Bool) ∧
       ∀ (k : Bool) (v : Bool),
         mapGet (fun _ : Bool => (0 : Int)) (⟨none⟩ : IMap Bool Bool) k = some v →
         ∃ v2, mapGet (fun _ : Bool => (0 : Int)) (⟨none⟩ : IMap Bool Bool) k =
             some v2 ∧ (fun _ _ => true : Bool → Bool → Bool) v v2 = true)) :=
  ⟨(fun r h => nomatch h),
   C7_equals_iff (fun _ : Bool => (0 : Int)) ⟨none⟩ ⟨none⟩ (fun _ _ => true)
     (fun r h => nomatch h) (fun r h => nomatch h) (fun r h => nomatch h)⟩

/-! ### Removal: helper lemmas -/

theorem hasB_of_childAt_some {K V : Type} (bm : Nat) (cs : List (HAMTNode K V))
    (d : Nat) (c : HAMTNode K V) (hc : childAt bm cs d = some c) :
    hasB bm d = true := by
  unfold childAt at hc
  by_cases hb : hasB bm d = true
  · exact hb
  · rw [if_neg hb] at hc
    exact Option.noConfusion hc

theorem flatMap_perm_congr {A B : Type} :
    ∀ (l : List A), l.Nodup → ∀ (g1 g2 : A → List B) (d : A),
      (∀ a ∈ l, a ≠ d → g1 a = g2 a) → List.Perm (g1 d) (g2 d) →
      List.Perm (l.flatMap g1) (l.flatMap g2) := by
  intro l
  induction l with
  | nil => intro _ g1 g2 d _ _; exact List.Perm.refl _
  | cons a t ih =>
    intro hnd g1 g2 d hag hperm
    obtain ⟨hna, hnt⟩ := List.nodup_cons.mp hnd
    simp only [List.flatMap_cons]
    by_cases had : a = d
    · subst had
      have htail : t.flatMap g1 = t.flatMap g2 := by
        refine flatMap_congr_mem t g1 g2 (fun b hb => hag b (by simp [hb]) ?_)
        intro hbd
        exact hna (hbd ▸ hb)
      rw [htail]
      exact hperm.append_right _
    · rw [hag a (by simp) had]
      exact List.Perm.append (List.Perm.refl _)
        (ih hnt g1 g2 d (fun b hb hbd => hag b (by simp [hb]) hbd) hperm)

theorem popcount_ge_two (bm d1 d2 : Nat) (h1 : hasB bm d1 = true)
    (h2 : hasB bm d2 = true) (hne : d1 ≠ d2) (hw1 : d1 < 32) (hw2 : d2 < 32) :
    2 ≤ popcount bm := by
  unfold popcount
  rcases Nat.lt_or_ge d1 d2 with hlt | hge
  · have ha : indexBelow bm (d1 + 1) = indexBelow bm d1 + 1 := by
      rw [indexBelow_succ_split, (hasB_true_iff bm d1).mp h1]
    have hb : indexBelow bm (d2 + 1) = indexBelow bm d2 + 1 := by
      rw [indexBelow_succ_split, (hasB_true_iff bm d2).mp h2]
    have hm1 : indexBelow bm (d1 + 1) ≤ indexBelow bm d2 :=
      indexBelow_mono bm (d1 + 1) d2 (by omega)
    have hm2 : indexBelow bm (d2 + 1) ≤ indexBelow bm 32 :=
      indexBelow_mono bm (d2 + 1) 32 (by omega)
    omega
  · have hlt : d2 < d1 := by omega
    have ha : indexBelow bm (d2 + 1) = indexBelow bm d2 + 1 := by
      rw [indexBelow_succ_split, (hasB_true_iff bm d2).mp h2]
    have hb : indexBelow bm (d1 + 1) = indexBelow bm d1 + 1 := by
      rw [indexBelow_succ_split, (hasB_true_iff bm d1).mp h1]
    have hm1 : indexBelow bm (d2 + 1) ≤ indexBelow bm d1 :=
      indexBelow_mono bm (d2 + 1) d1 (by omega)
    have hm2 : indexBelow bm (d1 + 1) ≤ indexBelow bm 32 :=
      indexBelow_mono bm (d1 + 1) 32 (by omega)
    omega

theorem exists_hasB_of_pos : ∀ (w bm : Nat), 0 < indexBelow bm w →
    ∃ d, d < w ∧ hasB bm d = true := by
  intro w
  induction w with
  | zero =>
    intro bm hpos
    have hz : indexBelow bm 0 = 0 := rfl
    omega
  | succ w ih =>
    intro bm hpos
    rw [indexBelow_succ_split] at hpos
    by_cases hw : 0 < indexBelow bm w
    · obtain ⟨d, hd, hdb⟩ := ih bm hw
      exact ⟨d, by omega, hdb⟩
    · have : bm / 2 ^ w % 2 = 1 := by omega
      exact ⟨w, by omega, (hasB_true_iff bm w).mpr this⟩

theorem nonempty_entries {K V : Type} {n : HAMTNode K V} {s : Nat}
    (hwf : Wf n s) : noEmptyB n = true → hentries n ≠ [] := by
  induction hwf with
  | leaf h0 k0 v0 s =>
    intro _
    rw [hentries_leaf]
    simp
  | bitmapIndexed bm cs s hbm hlen hwf hdig ihwf =>
    intro hne
    rw [noEmptyB_bi] at hne
    rw [Bool.and_eq_true] at hne
    obtain ⟨hcne, hall⟩ := hne
    have hcsne : cs ≠ [] := by
      cases cs with
      | nil => simp at hcne
      | cons a t => simp
    have hpos : 0 < popcount bm := by
      rw [← hlen]
      cases cs with
      | nil => exact absurd rfl hcsne
      | cons a t => simp
    obtain ⟨d, hd32, hdb⟩ := exists_hasB_of_pos 32 bm hpos
    obtain ⟨c, hc⟩ := childAt_isSome_of_hasB bm cs d hdb hlen hd32
    have hcm : c ∈ cs := childAt_mem bm cs d c hc
    have hcne2 : noEmptyB c = true := List.all_eq_true.mp hall c hcm
    have hent : hentries c ≠ [] := ihwf d c hc hcne2
    obtain ⟨e, he⟩ := List.exists_mem_of_ne_nil (hentries c) hent
    have : e ∈ hentries (HAMTNode.bitmapIndexed bm cs) :=
      (mem_hentries_bi bm cs e hbm hlen).mpr ⟨d, c, hc, he⟩
    intro hcontra
    rw [hcontra] at this
    simp at this

theorem removeNode_spec {K V : Type} {n : HAMTNode K V} {s : Nat} (hwf : Wf n s) :
    ∀ h : Int,
      (removeNode n h s = none →
        (hentries n).filter (fun e => e.1 != h) = []) ∧
      (∀ n2, removeNode n h s = some n2 →
        Wf n2 s ∧
        List.Perm (hentries n2) ((hentries n).filter (fun e => e.1 != h)) ∧
        (noEmptyB n = true → noEmptyB n2 = true)) := by
  induction hwf with
  | leaf h0 k0 v0 s =>
    intro h
    constructor
    · intro hnone
      rw [removeNode_leaf] at hnone
      by_cases heq : h = h0
      · rw [hentries_leaf]
        simp [heq]
      · rw [if_neg heq] at hnone
        exact Option.noConfusion hnone
    · intro n2 hsome
      rw [removeNode_leaf] at hsome
      by_cases heq : h = h0
      · rw [if_pos heq] at hsome
        exact Option.noConfusion hsome
      · rw [if_neg heq] at hsome
        have hn2 : n2 = HAMTNode.leaf h0 k0 v0 := (Option.some_inj.mp hsome).symm
        subst hn2
        refine ⟨Wf.leaf h0 k0 v0 s, ?_, fun hb => hb⟩
        rw [hentries_leaf]
        have : (((h0, k0, v0) : Int × K × V).1 != h) = true :=
          bne_iff_ne.mpr (fun hh => heq hh.symm)
        simp only [List.filter_cons, this, List.filter_nil]
        exact List.Perm.refl _
  | bitmapIndexed bm cs s hbm hlen hwf hdig ihwf =>
    intro h
    have hd32 : digit h s < 32 := digit_lt_32 h s
    by_cases hb : hasB bm (digit h s) = true
    · obtain ⟨c, hc⟩ := childAt_isSome_of_hasB bm cs (digit h s) hb hlen hd32
      obtain ⟨ihnone, ihsome⟩ := ihwf (digit h s) c hc h
      have hget : cs.get? (indexBelow bm (digit h s)) = some c := by
        unfold childAt at hc
        rw [hb] at hc
        simpa using hc
      have hidxlt : indexBelow bm (digit h s) < cs.length := by
        rw [hlen]
        exact indexBelow_lt_of_hasB bm (digit h s) 32 hb hd32
      have hrmeq : removeNode (HAMTNode.bitmapIndexed bm cs) h s =
          (match removeNode c h (s + 5) with
           | some c2 =>
               some (HAMTNode.bitmapIndexed bm
                 (cs.set (indexBelow bm (digit h s)) c2))
           | none =>
               if (removeAtL cs (indexBelow bm (digit h s))).isEmpty then none
               else
                 some (HAMTNode.bitmapIndexed (clearBit bm (digit h s))
                   (removeAtL cs (indexBelow bm (digit h s))))) := by
        rw [removeNode_bi, if_pos hb, hc]
      cases hrc : removeNode c h (s + 5) with
      | some c2 =>
        obtain ⟨hwc2, hpermc2, hnec2⟩ := ihsome c2 hrc
        rw [hrc] at hrmeq
        constructor
        · intro hnone
          rw [hrmeq] at hnone
          exact Option.noConfusion hnone
        · intro n2 hsome
          rw [hrmeq] at hsome
          have hn2 : n2 = HAMTNode.bitmapIndexed bm
              (cs.set (indexBelow bm (digit h s)) c2) :=
            (Option.some_inj.mp hsome).symm
          subst hn2
          have hlen2 : (cs.set (indexBelow bm (digit h s)) c2).length =
              popcount bm := by
            rw [List.length_set]; exact hlen
          refine ⟨?_, ?_, ?_⟩
          · refine Wf.bitmapIndexed _ _ _ hbm hlen2 ?_ ?_
            · intro d c3 hc3
              rw [childAt_set (digit h s) bm cs 32 _ hlen hb hd32] at hc3
              by_cases hdd : d = digit h s
              · rw [if_pos hdd] at hc3
                cases hc3
                exact hwc2
              · rw [if_neg hdd] at hc3
                exact hwf d c3 hc3
            · intro d c3 hc3 e he
              rw [childAt_set (digit h s) bm cs 32 _ hlen hb hd32] at hc3
              by_cases hdd : d = digit h s
              · rw [if_pos hdd] at hc3
                cases hc3
                have := hpermc2.mem_iff.mp he
                have hec : e ∈ hentries c := List.mem_of_mem_filter this
                rw [hdd]
                exact hdig (digit h s) c hc e hec
              · rw [if_neg hdd] at hc3
                exact hdig d c3 hc3 e he
          · rw [hentries_decompose bm _ hbm hlen2,
              hentries_decompose bm cs hbm hlen]
            unfold entriesAtDigits
            rw [filter_flatMap]
            refine flatMap_perm_congr (List.range 32) (List.nodup_range 32) _ _
              (digit h s) ?_ ?_
            · intro a _ hane
              rw [childAt_set (digit h s) bm cs 32 _ hlen hb hd32 a, if_neg hane]
              cases hca : childAt bm cs a with
              | none => rfl
              | some ca =>
                show hentries ca = List.filter (fun e => e.1 != h) (hentries ca)
                have hself : ∀ e ∈ hentries ca, (e.1 != h) = true := by
                  intro e he
                  have hda : digit e.1 s = a := hdig a ca hca e he
                  rw [bne_iff_ne]
                  intro hcontr
                  rw [hcontr] at hda
                  exact hane hda.symm
                exact (List.filter_eq_self.mpr hself).symm
            · rw [childAt_set (digit h s) bm cs 32 _ hlen hb hd32, if_pos rfl, hc]
              exact hpermc2
          · intro hne
            rw [noEmptyB_bi] at hne
            rw [Bool.and_eq_true] at hne
            obtain ⟨hcne, hall⟩ := hne
            rw [noEmptyB_bi, Bool.and_eq_true]
            constructor
            · cases cs with
              | nil => simp at hidxlt
              | cons a t => simp
            · rw [List.all_eq_true]
              intro x hx
              rcases List.mem_or_eq_of_mem_set hx with hx1 | hx1
              · exact List.all_eq_true.mp hall x hx1
              · rw [hx1]
                exact hnec2 (List.all_eq_true.mp hall c (List.get?_mem hget))
      | none =>
        have hfc : (hentries c).filter (fun e => e.1 != h) = [] := ihnone hrc
        rw [hrc] at hrmeq
        by_cases hemp : (removeAtL cs (indexBelow bm (digit h s))).isEmpty = true
        · rw [if_pos hemp] at hrmeq
          constructor
          · intro _
            have hcs2 : removeAtL cs (indexBelow bm (digit h s)) = [] := by
              cases hcc : removeAtL cs (indexBelow bm (digit h s)) with
              | nil => rfl
              | cons a t => rw [hcc] at hemp; simp at hemp
            have hlen1 : cs.length = 1 := by
              have hrl := length_removeAtL cs (indexBelow bm (digit h s)) hidxlt
              rw [hcs2] at hrl
              simp at hrl
              omega
            have honly : ∀ a, a < 32 → a ≠ digit h s → hasB bm a = false := by
              intro a ha hane
              by_contra hsetb
              have hsetb2 : hasB bm a = true := by simpa using hsetb
              have h2 := popcount_ge_two bm a (digit h s) hsetb2 hb hane ha hd32
              rw [← hlen] at h2
              omega
            rw [hentries_decompose bm cs hbm hlen]
            unfold entriesAtDigits
            rw [filter_flatMap]
            have hall0 : ∀ a ∈ List.range 32,
                (((childAt bm cs a).map hentries).getD []).filter
                  (fun e => e.1 != h) = ([] : List (Int × K × V)) := by
              intro a har
              by_cases had : a = digit h s
              · rw [had, hc]
                exact hfc
              · have hnone2 : childAt bm cs a = none := by
                  unfold childAt
                  rw [honly a (List.mem_range.mp har) had]
                  simp
                rw [hnone2]
                rfl
            rw [flatMap_congr_mem (List.range 32) _ (fun _ => []) hall0]
            simp
          · intro n2 hsome
            rw [hrmeq] at hsome
            exact Option.noConfusion hsome
        · rw [if_neg hemp] at hrmeq
          constructor
          · intro hnone
            rw [hrmeq] at hnone
            exact Option.noConfusion hnone
          · intro n2 hsome
            rw [hrmeq] at hsome
            have hn2 : n2 = HAMTNode.bitmapIndexed (clearBit bm (digit h s))
                (removeAtL cs (indexBelow bm (digit h s))) :=
              (Option.some_inj.mp hsome).symm
            subst hn2
            rw [clearBit_set bm (digit h s) hb]
            have hbm2 : bm - 2 ^ digit h s < 2 ^ 32 :=
              Nat.lt_of_le_of_lt (Nat.sub_le bm _) hbm
            have hlen2 : (removeAtL cs (indexBelow bm (digit h s))).length =
                popcount (bm - 2 ^ digit h s) := by
              rw [length_removeAtL cs _ hidxlt]
              unfold popcount
              rw [indexBelow_sub_pow (digit h s) bm 32 hd32 hb, hlen]
              rfl
            refine ⟨?_, ?_, ?_⟩
            · refine Wf.bitmapIndexed _ _ _ hbm2 hlen2 ?_ ?_
              · intro d c3 hc3
                rw [childAt_remove (digit h s) bm cs 32 hlen hb hd32] at hc3
                by_cases hdd : d = digit h s
                · rw [if_pos hdd] at hc3
                  exact Option.noConfusion hc3
                · rw [if_neg hdd] at hc3
                  exact hwf d c3 hc3
              · intro d c3 hc3 e he
                rw [childAt_remove (digit h s) bm cs 32 hlen hb hd32] at hc3
                by_cases hdd : d = digit h s
                · rw [if_pos hdd] at hc3
                  exact Option.noConfusion hc3
                · rw [if_neg hdd] at hc3
                  exact hdig d c3 hc3 e he
            · rw [hentries_decompose _ _ hbm2 hlen2,
                hentries_decompose bm cs hbm hlen]
              unfold entriesAtDigits
              rw [filter_flatMap]
              refine flatMap_perm_congr (List.range 32) (List.nodup_range 32) _ _
                (digit h s) ?_ ?_
              · intro a _ hane
                rw [childAt_remove (digit h s) bm cs 32 hlen hb hd32 a,
                  if_neg hane]
                cases hca : childAt bm cs a with
                | none => rfl
                | some ca =>
                  show hentries ca = List.filter (fun e => e.1 != h) (hentries ca)
                  have hself : ∀ e ∈ hentries ca, (e.1 != h) = true := by
                    intro e he
                    have hda : digit e.1 s = a := hdig a ca hca e he
                    rw [bne_iff_ne]
                    intro hcontr
                    rw [hcontr] at hda
                    exact hane hda.symm
                  exact (List.filter_eq_self.mpr hself).symm
              · rw [childAt_remove (digit h s) bm cs 32 hlen hb hd32,
                  if_pos rfl, hc]
                show List.Perm ([] : List (Int × K × V))
                  (List.filter (fun e => e.1 != h) (hentries c))
                rw [hfc]
            · intro hne
              rw [noEmptyB_bi] at hne
              rw [Bool.and_eq_true] at hne
              obtain ⟨hcne, hall⟩ := hne
              rw [noEmptyB_bi, Bool.and_eq_true]
              constructor
              · cases hcc : removeAtL cs (indexBelow bm (digit h s)) with
                | nil => rw [hcc] at hemp; simp at hemp
                | cons a t => simp
              · rw [List.all_eq_true]
                intro x hx
                exact List.all_eq_true.mp hall x
                  (mem_removeAtL cs (indexBelow bm (digit h s)) x hx)
    · constructor
      · intro hnone
        rw [removeNode_bi, if_neg hb] at hnone
        exact Option.noConfusion hnone
      · intro n2 hsome
        rw [removeNode_bi, if_neg hb] at hsome
        have hn2 : n2 = HAMTNode.bitmapIndexed bm cs :=
          (Option.some_inj.mp hsome).symm
        subst hn2
        refine ⟨Wf.bitmapIndexed bm cs s hbm hlen hwf hdig, ?_, fun hh => hh⟩
        have hself : ∀ e ∈ hentries (HAMTNode.bitmapIndexed bm cs),
            (e.1 != h) = true := by
          intro e he
          obtain ⟨d, c, hc, hec⟩ := (mem_hentries_bi bm cs e hbm hlen).mp he
          have hda : digit e.1 s = d := hdig d c hc e hec
          have hbs : hasB bm d = true := hasB_of_childAt_some bm cs d c hc
          rw [bne_iff_ne]
          intro hcontr
          rw [hcontr] at hda
          refine hb ?_
          rw [hda]
          exact hbs
        rw [List.filter_eq_self.mpr hself]

theorem mapRemove_root {K V : Type} (hasher : K → Int) (m : IMap K V) (k : K)
    (r2 : HAMTNode K V) (h2 : (mapRemove hasher m k).root = some r2) :
    ∃ r, m.root = some r ∧ removeNode r (hasher k) 0 = some r2 := by
  have h2b : m.root.bind (fun r => removeNode r (hasher k) 0) = some r2 := h2
  cases hro : m.root with
  | none => rw [hro] at h2b; exact Option.noConfusion h2b
  | some r =>
    rw [hro] at h2b
    exact ⟨r, rfl, h2b⟩

theorem mapRemove_inv {K V : Type} (hasher : K → Int) (m : IMap K V) (k : K)
    (hwf : WfRoot m) (hne : RootNoEmpty m) (hcons : HashConsistent hasher m) :
    WfRoot (mapRemove hasher m k) ∧ RootNoEmpty (mapRemove hasher m k) ∧
      HashConsistent hasher (mapRemove hasher m k) := by
  refine ⟨?_, ?_, ?_⟩
  · intro r2 h2
    obtain ⟨r, hro, hrm⟩ := mapRemove_root hasher m k r2 h2
    exact ((removeNode_spec (hwf r hro) (hasher k)).2 r2 hrm).1
  · intro r2 h2
    obtain ⟨r, hro, hrm⟩ := mapRemove_root hasher m k r2 h2
    exact ((removeNode_spec (hwf r hro) (hasher k)).2 r2 hrm).2.2 (hne r hro)
  · intro r2 h2 e he
    obtain ⟨r, hro, hrm⟩ := mapRemove_root hasher m k r2 h2
    have hperm := ((removeNode_spec (hwf r hro) (hasher k)).2 r2 hrm).2.1
    exact hcons r hro e (List.mem_of_mem_filter (hperm.mem_iff.mp he))

theorem remove_fold_inv {K V : Type} (hasher : K → Int) :
    ∀ (ks : List K) (m : IMap K V), WfRoot m → RootNoEmpty m →
      HashConsistent hasher m →
      WfRoot (ks.foldl (fun acc k => mapRemove hasher acc k) m) ∧
      RootNoEmpty (ks.foldl (fun acc k => mapRemove hasher acc k) m) ∧
      HashConsistent hasher (ks.foldl (fun acc k => mapRemove hasher acc k) m) := by
  intro ks
  induction ks with
  | nil =>
    intro m hwf hne hcons
    exact ⟨hwf, hne, hcons⟩
  | cons k t ih =>
    intro m hwf hne hcons
    obtain ⟨h1, h2, h3⟩ := mapRemove_inv hasher m k hwf hne hcons
    exact ih (mapRemove hasher m k) h1 h2 h3

theorem remove_fold_spec {K V : Type} (hasher : K → Int) :
    ∀ (ks : List K) (m : IMap K V), WfRoot m → RootNoEmpty m →
      HashConsistent hasher m →
      (∀ r, m.root = some r → ∀ e ∈ hentries r, ∃ k ∈ ks, hasher k = e.1) →
      (ks.foldl (fun acc k => mapRemove hasher acc k) m).root = none := by
  intro ks
  induction ks with
  | nil =>
    intro m hwf hne hcons hcov
    show m.root = none
    cases hro : m.root with
    | none => rfl
    | some r =>
      exfalso
      have hentne : hentries r ≠ [] := nonempty_entries (hwf r hro) (hne r hro)
      obtain ⟨e, he⟩ := List.exists_mem_of_ne_nil _ hentne
      obtain ⟨k, hk, _⟩ := hcov r hro e he
      simp at hk
  | cons k t ih =>
    intro m hwf hne hcons hcov
    obtain ⟨h1, h2, h3⟩ := mapRemove_inv hasher m k hwf hne hcons
    refine ih (mapRemove hasher m k) h1 h2 h3 ?_
    intro r2 h2r e he
    obtain ⟨r, hro, hrm⟩ := mapRemove_root hasher m k r2 h2r
    have hperm := ((removeNode_spec (hwf r hro) (hasher k)).2 r2 hrm).2.1
    have hef := hperm.mem_iff.mp he
    have hmem : e ∈ hentries r := List.mem_of_mem_filter hef
    have hpred : (e.1 != hasher k) = true := (List.mem_filter.mp hef).2
    obtain ⟨k2, hk2, hkk⟩ := hcov r hro e hmem
    rcases List.mem_cons.mp hk2 with hk2e | hkt
    · exfalso
      rw [bne_iff_ne] at hpred
      rw [hk2e] at hkk
      exact hpred hkk.symm
    · exact ⟨k2, hkt, hkk⟩

/-- C4: removing every key of a well-formed, hash-consistent, no-empty-node
    map (in any order) drives the root to the canonical empty `null` with
    `size() = 0`; every intermediate map still has no empty bitmap-indexed
    node; and re-adding any key to the emptied map yields a depth-1 trie
    (a single leaf as the root). -/
theorem C4_remove_all_collapses {K V : Type} (hasher : K → Int) (m : IMap K V)
    (ks : List K) (hwf : WfRoot m) (hnem : RootNoEmpty m)
    (hcons : HashConsistent hasher m)
    (hks : List.Perm ks ((mapToArray m).map (fun e => e.1))) :
    (ks.foldl (fun acc k => mapRemove hasher acc k) m).root = none ∧
    mapSize (ks.foldl (fun acc k => mapRemove hasher acc k) m) = 0 ∧
    (∀ i, RootNoEmpty ((ks.take i).foldl (fun acc k => mapRemove hasher acc k) m)) ∧
    (∀ (k : K) (v : V),
      (mapAdd hasher (ks.foldl (fun acc k => mapRemove hasher acc k) m) k v).root =
        some (.leaf (hasher k) k v)) := by
  have hcov : ∀ r, m.root = some r → ∀ e ∈ hentries r, ∃ k ∈ ks, hasher k = e.1 := by
    intro r hro e he
    have hta : mapToArray m = (hentries r).map (fun t => (t.2.1, t.2.2)) := by
      unfold mapToArray
      rw [hro]
      rfl
    have hkm : e.2.1 ∈ (mapToArray m).map (fun e2 => e2.1) := by
      rw [hta]
      exact List.mem_map.mpr ⟨(e.2.1, e.2.2), List.mem_map.mpr ⟨e, he, rfl⟩, rfl⟩
    exact ⟨e.2.1, hks.mem_iff.mpr hkm, (hcons r hro e he).symm⟩
  have hnone := remove_fold_spec hasher ks m hwf hnem hcons hcov
  refine ⟨hnone, ?_, ?_, ?_⟩
  · have hta : mapToArray (ks.foldl (fun acc k => mapRemove hasher acc k) m) = [] := by
      unfold mapToArray
      rw [hnone]
    unfold mapSize
    rw [hta]
    rfl
  · intro i
    exact (remove_fold_inv hasher (ks.take i) m hwf hnem hcons).2.1
  · intro k v
    unfold mapAdd
    rw [hnone]

theorem C4_remove_all_collapses_witness :
    List.Perm [true]
      ((mapToArray (⟨some (.leaf 0 true false)⟩ : IMap Bool Bool)).map
        (fun e => e.1)) ∧
    (([true].foldl
        (fun acc k => mapRemove (fun _ : Bool => (0 : Int)) acc k)
        (⟨some (.leaf 0 true false)⟩ : IMap Bool Bool)).root = none ∧
      mapSize ([true].foldl
        (fun acc k => mapRemove (fun _ : Bool => (0 : Int)) acc k)
        (⟨some (.leaf 0 true false)⟩ : IMap Bool Bool)) = 0 ∧
      (∀ i, RootNoEmpty (([true].take i).foldl
        (fun acc k => mapRemove (fun _ : Bool => (0 : Int)) acc k)
        (⟨some (.leaf 0 true false)⟩ : IMap Bool Bool))) ∧
      (∀ (k : Bool) (v : Bool),
        (mapAdd (fun _ : Bool => (0 : Int))
          ([true].foldl
            (fun acc k => mapRemove (fun _ : Bool => (0 : Int)) acc k)
            (⟨some (.leaf 0 true false)⟩ : IMap Bool Bool)) k v).root =
          some (.leaf ((fun _ : Bool => (0 : Int)) k) k v))) := by
  have hta : mapToArray (⟨some (.leaf 0 true false)⟩ : IMap Bool Bool) =
      [(true, false)] := by
    show toArrayNode (HAMTNode.leaf 0 true false) = [(true, false)]
    unfold toArrayNode
    rw [hentries_leaf]
    rfl
  constructor
  · rw [hta]
    exact List.Perm.refl _
  · exact C4_remove_all_collapses (fun _ : Bool => (0 : Int))
      ⟨some (.leaf 0 true false)⟩ [true]
      (fun r h => by cases h; exact Wf.leaf 0 true false 0)
      (fun r h => by cases h; exact noEmptyB_leaf 0 true false)
      (fun r h e he => by
        cases h
        rw [hentries_leaf, List.mem_singleton] at he
        subst he
        rfl)
      (by rw [hta]; exact List.Perm.refl _)
